import Mathlib

set_option autoImplicit false

/-!
Verification development for the cdimage track encoder (Go source).

The Go core is shallowly embedded:
* machine integers and `float64` control variables (`tr`, `r`, `c`) are
  modelled as `ℚ` with Go's `int(x)` truncation made explicit
  (`truncInt`); every claim instantiated concretely below uses parameter
  values at which `float64` arithmetic is exact, so the `ℚ` recurrence
  coincides with the compiled program's;
* the per-sample image sampling composite (`alpha`/`cos`/`sin`,
  `sampleImage`, `rgbaToGray` — part_003 lines 144-150, repeated verbatim
  in part_002 lines 247-253) is abstracted as a sampling oracle
  `G : ℚ → ℤ → ℕ → ℕ` mapping (track image radius `ri`, `itr`, sample
  index `i`) to the 8-bit gray value; the sequential and parallel drivers
  execute the identical Go expression on identical inputs, so both
  embeddings consume the same oracle;
* file/IO is modelled as the list of bytes written, errors as explicit
  values, and the process-wide RNG path (`mixColors = true`,
  part_003 lines 160-165) is out of the deterministic claims below — the
  embedding covers the ordered-dithering path (`mixColors = false`).
-/

namespace CDImage

/-- Constant `D` (part_003 line 14). -/
def D : ℤ := 4

/-- Audio CD sector size (part_003 line 16). -/
def SectorSize : ℕ := 2352

/-- Total size for CD, 800 MiB (part_003 line 18). -/
def CDTotalSize : ℕ := 800 * 1024 * 1024

/-- Total size for DVD (part_003 line 20). -/
def DVDTotalSize : ℕ := 4700 * 1024 * 1024

/-- The 24-entry delay table (part_003 lines 24-32), written exactly as in
the source with `D = 4`. -/
def delays : List ℤ := [
  -24 * 3, -24 * (1 * D + 2) + 1, 8 - 24 * (2 * D + 3), 8 - 24 * (3 * D + 2) + 1,
  16 - 24 * (4 * D + 3), 16 - 24 * (5 * D + 2) + 1, 2 - 24 * (6 * D + 3), 2 - 24 * (7 * D + 2) + 1,
  10 - 24 * (8 * D + 3), 10 - 24 * (9 * D + 2) + 1, 18 - 24 * (10 * D + 3), 18 - 24 * (11 * D + 2) + 1,
  4 - 24 * (16 * D + 1), 4 - 24 * (17 * D) + 1, 12 - 24 * (18 * D + 1), 12 - 24 * (19 * D) + 1,
  20 - 24 * (20 * D + 1), 20 - 24 * (21 * D) + 1, 6 - 24 * (22 * D + 1), 6 - 24 * (23 * D) + 1,
  14 - 24 * (24 * D + 1), 14 - 24 * (25 * D) + 1, 22 - 24 * (26 * D + 1), 22 - 24 * (27 * D) + 1]

/-- `delays[j]`. -/
def delay (j : ℕ) : ℤ := delays.getD j 0

/-- The 4-entry output palette (part_003 line 35). -/
def palette : List ℕ := [0x10, 0x21, 0x28, 0xAA]

/-- `palette[j]`. -/
def paletteAt (j : ℕ) : ℕ := palette.getD j 0

/-- Interleaver state: the `24*28*D = 2688`-slot ring buffer `intseq`
(modelled as a total function on slot indices), frame counter `nh` and
write cursor `pinf` (part_003 lines 46-48).  `NewConverter` initialises
`nh = 28*D-1 = 111`, `pinf = 0`, buffer zeroed (lines 58-68). -/
structure AdState where
  intseq : ℕ → ℕ
  nh : ℕ
  pinf : ℕ

/-- Initial interleaver state from `NewConverter` (part_003 lines 58-68). -/
def adInit : AdState := ⟨fun _ => 0, 28 * 4 - 1, 0⟩

/-- `n2m` (part_003 lines 274-282): map a (possibly negative) logical
index to a ring-buffer slot with one conditional wrap. -/
def n2m (nh : ℕ) (n : ℤ) : ℤ :=
  let index : ℤ := (nh : ℤ) * 24 + n
  if 28 * 4 * 24 ≤ index then index - 28 * 4 * 24
  else if index < 0 then index + 28 * 4 * 24
  else index

/-- One call of `ad` (part_003 lines 252-271): store the byte at the
delayed slot, advance `pinf`, and on frame completion advance `nh` and
emit the 24 bytes read at the new frame position (these are handed to
`bw` in increasing order).  Returns the new state and the emitted bytes. -/
def adStep (s : AdState) (b : ℕ) : AdState × List ℕ :=
  let wIdx := (n2m s.nh (delay s.pinf)).toNat
  let seq1 : ℕ → ℕ := fun i => if i = wIdx then b else s.intseq i
  if s.pinf + 1 ≥ 24 then
    let nh1 := if s.nh + 1 ≥ 28 * 4 then 0 else s.nh + 1
    (⟨seq1, nh1, 0⟩,
      (List.range 24).map (fun (i : ℕ) => seq1 (n2m nh1 (i : ℤ)).toNat))
  else
    (⟨seq1, s.nh, s.pinf + 1⟩, [])

/-- Feed a list of bytes through `ad` one by one, concatenating the
emitted bytes. -/
def adRun (s : AdState) : List ℕ → AdState × List ℕ
  | [] => (s, [])
  | b :: rest =>
    let p := adStep s b
    let q := adRun p.1 rest
    (q.1, p.2 ++ q.2)

/-- The interleaved byte stream produced by feeding `xs` through `ad`
from the initial converter state. -/
def interleave (xs : List ℕ) : List ℕ := (adRun adInit xs).2

/-- Go `int(x)` conversion of a `float64`: truncation toward zero. -/
def truncInt (q : ℚ) : ℤ := if 0 ≤ q then ⌊q⌋ else ⌈q⌉

/-- Ordered-dithering quantization (part_003 lines 152-172, the
`mixColors = false` branch): `c1 = gray / 85` (byte division),
`c2 = c1 + 1` clamped to 3, and the high index is chosen iff
`gray % 85 > zs*5 + zf` or `gray % 85 == 84`. -/
def quantIndex (gray zs zf : ℕ) : ℕ :=
  let c1 := gray / 85
  let c2 := if c1 + 1 > 3 then 3 else c1 + 1
  let grayMod := gray % 85
  if grayMod > zs * 5 + zf ∨ grayMod = 84 then c2 else c1

/-- The palette byte emitted for one sample (part_003 line 174). -/
def sampleByte (gray zs zf : ℕ) : ℕ := paletteAt (quantIndex gray zs zf)

/-- Per-sample `zf` advancement inside a track (part_003 lines 178-181). -/
def zfNext (zf : ℕ) : ℕ := if zf + 1 ≥ 5 then 0 else zf + 1

/-! ## Sequential encoder (`Convert`, part_003 lines 82-216) -/

/-- Caller-supplied conversion parameters (`NewConverter`, part_003
lines 58-69).  `mixColors` is fixed to `false` (ordered dithering) in
this development. -/
structure Params where
  tr0 : ℚ
  dtr : ℚ
  r0 : ℚ
  discType : String

/-- Total symbol budget by disc type (part_003 lines 83-87): CD unless
the type is `"dvd"`. -/
def totalSize (discType : String) : ℕ :=
  if discType = "dvd" then DVDTotalSize else CDTotalSize

/-- The budget as a rational, for the `float64` loop comparison. -/
def totalQ (p : Params) : ℚ := (totalSize p.discType : ℚ)

/-- `dr = dtr * r0 / tr0`, computed once per run (part_003 line 104). -/
def drOf (p : Params) : ℚ := p.dtr * p.r0 / p.tr0

/-- The image radius `ri = ir * r / rcd` with `ir = 1500.0`,
`rcd = 57.5` (part_003 lines 108-109, 140). -/
def riOf (r : ℚ) : ℚ := 1500 * r / (115 / 2)

/-- Sampling oracle: gray value of sample `i` of a track with image
radius `ri` and `itr` samples.  Abstracts part_003 lines 144-150
(`alpha`, `cos`/`sin`, `sampleImage`, `rgbaToGray`), which part_002
lines 247-253 repeat verbatim; both drivers are interpreted against the
same oracle. -/
def G : Type := ℚ → ℤ → ℕ → ℕ

/-- Track-control state of the `Convert` loop: the spiral variables
`tr`, `r`, `c` and the dither phases `zs`, `zf`
(part_003 lines 102-114). -/
structure Ctl where
  tr : ℚ
  r : ℚ
  c : ℚ
  zs : ℕ
  zf : ℕ

/-- Initial control state (part_003 lines 102-114). -/
def ctlInit (p : Params) : Ctl := ⟨p.tr0, p.r0, 0, 0, 0⟩

/-- Encoder output state: interleaver, sector buffer (`conv.buffer`
with fill count `conv.c`, modelled as the list of buffered bytes —
part_003 lines 49-51) and the bytes written to the output file. -/
structure EncSt where
  ad : AdState
  sect : List ℕ
  fileOut : List ℕ

/-- Initial output state. -/
def encInit : EncSt := ⟨adInit, [], []⟩

/-- `bw` (part_003 lines 285-297): append a byte to the sector buffer;
when it reaches `SectorSize` bytes, write the full sector to the file
and reset. -/
def bwStep (st : EncSt) (b : ℕ) : EncSt :=
  let sect1 := st.sect ++ [b]
  if sect1.length ≥ SectorSize then ⟨st.ad, [], st.fileOut ++ sect1⟩
  else ⟨st.ad, sect1, st.fileOut⟩

/-- `ad` at the encoder level: run one interleaver step and feed each
emitted byte through `bw` (part_003 lines 263-267). -/
def emit (st : EncSt) (b : ℕ) : EncSt :=
  let p := adStep st.ad b
  p.2.foldl bwStep ⟨p.1, st.sect, st.fileOut⟩

/-- The per-track sample loop (part_003 lines 143-182): for each of
`cnt` remaining samples starting at index `i`, sample the image,
quantize with the current `(zs, zf)`, feed the palette byte through
`ad`, and advance `zf`.  Returns the final `zf` and output state. -/
def trackLoop (g : G) (ri : ℚ) (itr : ℤ) (zs : ℕ) :
    ℕ → ℕ → ℕ → EncSt → ℕ × EncSt
  | _, 0, zf, st => (zf, st)
  | i, cnt + 1, zf, st =>
    trackLoop g ri itr zs (i + 1) cnt (zfNext zf)
      (emit st (sampleByte (g ri itr i) zs zf))

/-- The dead padding loop (part_003 lines 185-197): `ic := int(c)` and
then `for int(c) > ic { ad(palette[0]); ic++; zf++; if zf >= 4 { zf = 0 } }`.
Since `c` is not changed in the body and `ic` increases, the loop runs
exactly `(int(c) - ic)⁺` times; it is entered with `ic = int(c)`, so it
runs zero times. -/
def padLoop : ℕ → ℕ → EncSt → ℕ × EncSt
  | 0, zf, st => (zf, st)
  | n + 1, zf, st =>
    padLoop n (if zf + 1 ≥ 4 then 0 else zf + 1) (emit st (paletteAt 0))

/-- One iteration of the `Convert` while-loop body after the progress
report (part_003 lines 139-205). -/
def convertBody (g : G) (p : Params) (ctl : Ctl) (st : EncSt) : Ctl × EncSt :=
  let itr := truncInt ctl.tr
  let ri := riOf ctl.r
  let z1 := trackLoop g ri itr ctl.zs 0 itr.toNat ctl.zf st
  let c1 := ctl.c + ctl.tr
  let ic := truncInt c1
  let z2 := padLoop (truncInt c1 - ic).toNat z1.1 z1.2
  ⟨⟨ctl.tr + p.dtr, ctl.r + drOf p, c1,
    if ctl.zs + 1 ≥ 17 then 0 else ctl.zs + 1, z2.1⟩, z2.2⟩

/-- Final flush (part_003 lines 209-213): the residual sector-buffer
content is appended to the file (a no-op when it is empty). -/
def finalize (st : EncSt) : List ℕ := st.fileOut ++ st.sect

/-- The `Convert` while-loop (part_003 lines 116-215), fuel-indexed.
Cancellation callbacks are absent (no cancellation in the runs the
claims describe); the progress callback is modelled as installed, so
`int(100*c/totalSize)` is recorded at the top of every iteration
(lines 133-137).  Returns `none` when the fuel is exhausted before the
loop condition fails, otherwise the file bytes and the reported
progress values. -/
def convertLoop (g : G) (p : Params) :
    ℕ → Ctl → EncSt → List ℤ → Option (List ℕ × List ℤ)
  | 0, _, _, _ => none
  | fuel + 1, ctl, st, prog =>
    if ctl.c < totalQ p - ctl.tr then
      let prog1 := prog ++ [truncInt (100 * ctl.c / totalQ p)]
      let next := convertBody g p ctl st
      convertLoop g p fuel next.1 next.2 prog1
    else
      some (finalize st, prog)

/-- The embedded `Convert` (part_003 lines 82-216). -/
def convert (g : G) (p : Params) (fuel : ℕ) : Option (List ℕ × List ℤ) :=
  convertLoop g p fuel (ctlInit p) encInit []

/-! ### Pure track-level view of the sequential loop

`ctlSeq p t` is the control state at the top of iteration `t`.  The
`zf` update is the net effect of `itr.toNat` applications of `zfNext`
(the dead padding loop contributes nothing); the rest mirrors
part_003 lines 184-205 literally. -/

/-- One control-state step of the sequential loop. -/
def ctlStep (p : Params) (ctl : Ctl) : Ctl :=
  ⟨ctl.tr + p.dtr, ctl.r + drOf p, ctl.c + ctl.tr,
    if ctl.zs + 1 ≥ 17 then 0 else ctl.zs + 1,
    (ctl.zf + (truncInt ctl.tr).toNat) % 5⟩

/-- Control state before iteration `t` of the sequential loop. -/
def ctlSeq (p : Params) : ℕ → Ctl
  | 0 => ctlInit p
  | t + 1 => ctlStep p (ctlSeq p t)

/-- The loop guard `c < totalSize - tr` (part_003 line 116). -/
def loopCond (p : Params) (ctl : Ctl) : Prop := ctl.c < totalQ p - ctl.tr

instance (p : Params) (ctl : Ctl) : Decidable (loopCond p ctl) := by
  unfold loopCond; infer_instance

/-- The sequential run executes exactly `N` track iterations. -/
def TerminatesAt (p : Params) (N : ℕ) : Prop :=
  (∀ t < N, loopCond p (ctlSeq p t)) ∧ ¬ loopCond p (ctlSeq p N)

/-- The list of palette bytes produced by one track's sample loop
(the emission order of part_003 lines 143-182). -/
def symList (g : G) (ri : ℚ) (itr : ℤ) (zs : ℕ) : ℕ → ℕ → ℕ → List ℕ
  | _, 0, _ => []
  | i, cnt + 1, zf =>
    sampleByte (g ri itr i) zs zf :: symList g ri itr zs (i + 1) cnt (zfNext zf)

/-- The palette-byte stream of the track started from control state
`ctl`. -/
def trackSyms (g : G) (ctl : Ctl) : List ℕ :=
  symList g (riOf ctl.r) (truncInt ctl.tr) ctl.zs 0 (truncInt ctl.tr).toNat ctl.zf

/-- The concatenated symbol streams of `T` consecutive sequential
tracks starting at track `t0`. -/
def symsRange (g : G) (p : Params) : ℕ → ℕ → List ℕ
  | 0 => fun _ => []
  | T + 1 => fun t0 => trackSyms g (ctlSeq p t0) ++ symsRange g p T (t0 + 1)

/-- The full pre-interleaving symbol stream of an `N`-track sequential
run. -/
def seqSyms (g : G) (p : Params) (N : ℕ) : List ℕ := symsRange g p N 0

/-- The progress values reported at the top of `T` consecutive
sequential iterations starting at track `t0` (part_003 lines 133-137). -/
def progRange (p : Params) : ℕ → ℕ → List ℤ
  | 0 => fun _ => []
  | T + 1 => fun t0 =>
    truncInt (100 * (ctlSeq p t0).c / totalQ p) :: progRange p T (t0 + 1)

/-- The progress values reported during an `N`-track sequential run. -/
def progList (p : Params) (N : ℕ) : List ℤ := progRange p N 0

/-! ## Parallel pipeline (`ConvertParallel`, part_002) -/

/-- A track job (part_002 lines 15-24).  The geometry constants the Go
struct copies unchanged (`rcd = 57.5`, `ir = 1500`, `cx`, `cy`) are
process constants folded into `riOf` and the sampling oracle. -/
structure TrackJob where
  trackIndex : ℕ
  tr : ℚ
  r : ℚ
  itr : ℤ
  zs : ℕ
  zf : ℕ

/-- Job-generator state (part_002 lines 78-91): the same spiral
variables as the sequential loop plus the running `trackIndex`.  The
generator never updates `zf` (lines 139-187). -/
structure GenSt where
  tr : ℚ
  r : ℚ
  c : ℚ
  zs : ℕ
  zf : ℕ
  trackIndex : ℕ

/-- Initial generator state (part_002 lines 78-91). -/
def genInit (p : Params) : GenSt := ⟨p.tr0, p.r0, 0, 0, 0, 0⟩

/-- One job-generator step (part_002 lines 178-186): advance `c`, `tr`,
`r`, `trackIndex` and `zs`; `zf` is left untouched. -/
def genStep (p : Params) (s : GenSt) : GenSt :=
  ⟨s.tr + p.dtr, s.r + drOf p, s.c + s.tr,
    if s.zs + 1 ≥ 17 then 0 else s.zs + 1, s.zf, s.trackIndex + 1⟩

/-- Generator state before job `t` is issued. -/
def genSeq (p : Params) : ℕ → GenSt
  | 0 => genInit p
  | t + 1 => genStep p (genSeq p t)

/-- The job snapshot taken at part_002 lines 157-170. -/
def jobOf (s : GenSt) : TrackJob :=
  ⟨s.trackIndex, s.tr, s.r, truncInt s.tr, s.zs, s.zf⟩

/-- The jobs issued by an `N`-track generator run, in issue order. -/
def parJobs (p : Params) (N : ℕ) : List TrackJob :=
  (List.range N).map (fun t => jobOf (genSeq p t))

/-- Worker sample loop of `processTrack` (part_002 lines 240-285):
identical per-sample computation to the sequential inner loop, with a
local `zf` starting from `job.zf`, appending palette bytes to the track
data (no interleaving). -/
def ptLoop (g : G) (ri : ℚ) (itr : ℤ) (zs : ℕ) : ℕ → ℕ → ℕ → List ℕ
  | _, 0, _ => []
  | i, cnt + 1, zf =>
    sampleByte (g ri itr i) zs zf :: ptLoop g ri itr zs (i + 1) cnt (zfNext zf)

/-- `processTrack` (part_002 lines 233-288) in the no-cancellation
model: it always succeeds and returns the track's palette bytes. -/
def processTrack (g : G) (job : TrackJob) : List ℕ :=
  ptLoop g (riOf job.r) job.itr job.zs 0 job.itr.toNat job.zf

/-- A worker result (part_002 lines 27-31); `err` records whether the
worker reported an error. -/
structure TrackResult where
  trackIndex : ℕ
  data : List ℕ
  err : Bool
deriving DecidableEq

/-- Reassembly buffer: the `map[int][]byte` of part_002 line 100,
modelled as an association list with overwrite-on-insert. -/
def bufFind (buf : List (ℕ × List ℕ)) (k : ℕ) : Option (List ℕ) :=
  (buf.find? (fun e => e.1 == k)).map Prod.snd

/-- Map deletion (`delete(trackBuffer, ...)`, part_002 line 124). -/
def bufErase (buf : List (ℕ × List ℕ)) (k : ℕ) : List (ℕ × List ℕ) :=
  buf.filter (fun e => e.1 != k)

/-- Map insertion (`trackBuffer[result.trackIndex] = result.data`,
part_002 line 115). -/
def bufInsert (buf : List (ℕ × List ℕ)) (k : ℕ) (v : List ℕ) :
    List (ℕ × List ℕ) :=
  (k, v) :: bufErase buf k

/-- Collector state: reassembly buffer, `nextTrackToWrite`, and the
sequence of (trackIndex, bytes) writes made to the file so far. -/
structure ColSt where
  buf : List (ℕ × List ℕ)
  next : ℕ
  written : List (ℕ × List ℕ)

/-- The inner drain loop of the collector (part_002 lines 118-129):
while the next expected track is buffered, write it, evict it and
advance.  Each iteration removes one buffer entry, so `buf.length` fuel
always suffices; the fuel argument only makes the recursion
structural. -/
def drainLoop : ℕ → ColSt → ColSt
  | 0, st => st
  | fuel + 1, st =>
    match bufFind st.buf st.next with
    | some d =>
      drainLoop fuel
        ⟨bufErase st.buf st.next, st.next + 1, st.written ++ [(st.next, d)]⟩
    | none => st

/-- Processing of one arriving result (part_002 lines 108-130): an
errored result is skipped (`continue`), otherwise the data is buffered
and the drain loop runs. -/
def collectStep (st : ColSt) (res : TrackResult) : ColSt :=
  if res.err then st
  else
    let buf1 := bufInsert st.buf res.trackIndex res.data
    drainLoop buf1.length ⟨buf1, st.next, st.written⟩

/-- The collector run on a whole arrival sequence, from the initial
state (`trackBuffer` empty, `nextTrackToWrite = 0`). -/
def collect (results : List TrackResult) : ColSt :=
  results.foldl collectStep ⟨[], 0, []⟩

/-- The value `ConvertParallel` returns together with the file writes,
for a run in which file creation succeeds and the context is never
cancelled: the collector output and — since worker errors are skipped
at part_002 lines 109-112 and the function returns `nil` at line 200 —
no error. -/
def convertParallelRun (results : List TrackResult) :
    ColSt × Option String :=
  (collect results, none)

/-- The concatenated worker outputs for `T` consecutive jobs starting
at job `t0`, in track-index order (the order the reassembly stage
writes them). -/
def parSyms (g : G) (p : Params) : ℕ → ℕ → List ℕ
  | 0 => fun _ => []
  | T + 1 => fun t0 =>
    processTrack g (jobOf (genSeq p t0)) ++ parSyms g p T (t0 + 1)

/-- The output file bytes of the corrected parallel pipeline of the
spec (§4.4/§9): the reassembled per-track worker streams in index
order, with the sequential interleaver/sector stage applied to the
reassembled stream. -/
def parCorrectedBytes (g : G) (p : Params) (N : ℕ) : List ℕ :=
  interleave (parSyms g p N 0)

/-- The job generator with the sample-phase fix: identical to
`genStep` except that `zf` is carried across tracks exactly as the
sequential encoder's sample loop leaves it. -/
def genStepFixed (p : Params) (s : GenSt) : GenSt :=
  ⟨s.tr + p.dtr, s.r + drOf p, s.c + s.tr,
    if s.zs + 1 ≥ 17 then 0 else s.zs + 1,
    (s.zf + (truncInt s.tr).toNat) % 5, s.trackIndex + 1⟩

/-- Fixed-generator state before job `t`. -/
def genSeqFixed (p : Params) : ℕ → GenSt
  | 0 => genInit p
  | t + 1 => genStepFixed p (genSeqFixed p t)

/-- Jobs of the zf-corrected generator. -/
def parJobsFixed (p : Params) (N : ℕ) : List TrackJob :=
  (List.range N).map (fun t => jobOf (genSeqFixed p t))

/-- The concatenated worker outputs of the zf-corrected generator. -/
def parSymsFixed (g : G) (p : Params) : ℕ → ℕ → List ℕ
  | 0 => fun _ => []
  | T + 1 => fun t0 =>
    processTrack g (jobOf (genSeqFixed p t0)) ++ parSymsFixed g p T (t0 + 1)

/-- Output of the parallel pipeline corrected for both divergences:
interleaving added and `zf` carried across tracks. -/
def parFixedBytes (g : G) (p : Params) (N : ℕ) : List ℕ :=
  interleave (parSymsFixed g p N 0)

/-! ## Parameter validation (`burnImage`, part_008 lines 17-69) -/

/-- A disc preset (presets.go lines 9-15). -/
structure DiscPreset where
  name : String
  discTypeP : String
  tr0 : ℚ
  dtr : ℚ
  r0 : ℚ

/-- The preset table (presets.go lines 18-81), keyed by name.  The
`float64` literals are transcribed as exact decimals. -/
def presetTable : List (String × DiscPreset) := [
  ("verbatim-cd-rw-1",
    ⟨"Verbatim CD-RW Hi-Speed 8x-10x 700 MB SERL 1", "cd",
      2295152 / 100, 13865961 / 10000000, 49 / 2⟩),
  ("verbatim-cd-rw-2",
    ⟨"Verbatim CD-RW Hi-Speed 8x-10x 700 MB SERL 2", "cd",
      2295107 / 100, 13865958 / 10000000, 49 / 2⟩),
  ("eperformance-cd-rw",
    ⟨"eProformance CD-RW 4x-10x 700 MB Prodisk Technology Inc", "cd",
      22936085 / 1000, 138314 / 100000, 49 / 2⟩),
  ("tdk-cd-rw",
    ⟨"TDK CD-RW 4x-12x HIGH SPEED 700MB 80MIN", "cd",
      23000145 / 1000, 138659775 / 100000000, 49 / 2⟩),
  ("generic-dvd-r", ⟨"Generic DVD-R 4.7GB", "dvd", 48000, 74 / 100, 24⟩),
  ("generic-dvd-rw", ⟨"Generic DVD-RW 4.7GB", "dvd", 48050, 741 / 1000, 24⟩),
  ("verbatim-dvd-r", ⟨"Verbatim DVD-R 16x 4.7GB", "dvd", 47980, 739 / 1000, 24⟩),
  ("sony-dvd-rw", ⟨"Sony DVD-RW 4x 4.7GB", "dvd", 48100, 742 / 1000, 24⟩)]

/-- `GetPresetByName` (presets.go lines 84-88). -/
def getPresetByName (name : String) : Option DiscPreset :=
  (presetTable.find? (fun e => e.1 == name)).map Prod.snd

/-- `GetDefaultPreset` (presets.go lines 91-100). -/
def getDefaultPreset (discType : String) : DiscPreset :=
  if discType = "dvd" then (getPresetByName "generic-dvd-r").getD
    ⟨"", "dvd", 0, 0, 0⟩
  else (getPresetByName "verbatim-cd-rw-1").getD ⟨"", "cd", 0, 0, 0⟩

/-- ASCII lower-casing of one character (model of Go
`strings.ToLower` on the ASCII disc-type strings this program
compares). -/
def charLower (c : Char) : Char :=
  if 'A' ≤ c ∧ c ≤ 'Z' then Char.ofNat (c.toNat + 32) else c

/-- ASCII lower-casing of a string. -/
def strToLower (s : String) : String := ⟨s.data.map charLower⟩

/-- The parameter-validation and preset-resolution prefix of
`burnImage` (part_008 lines 17-69), up to the point where conversion
work starts.  Image loading (line 26) sits between the disc-type check
and the preset logic and is not a parameter check; it is omitted.
Returns either an error message or the final `(tr0, dtr, r0)` handed to
the converter. -/
def burnValidate (discType : String) (tr0 dtr r0 : ℚ) (preset : String) :
    Except String (ℚ × ℚ × ℚ) := do
  let dt := strToLower discType
  if dt ≠ "cd" ∧ dt ≠ "dvd" then
    throw "invalid disc type"
  else
    if preset ≠ "" then
      match getPresetByName preset with
      | none => throw "preset not found"
      | some pr =>
        if pr.discTypeP ≠ dt then throw "preset disc type mismatch"
        else pure (pr.tr0, pr.dtr, pr.r0)
    else
      if tr0 = 0 ∨ dtr = 0 then
        let pr := getDefaultPreset dt
        pure (pr.tr0, pr.dtr, pr.r0)
      else
        pure (tr0, dtr, r0)

/-! ## Derived views used by the theorems -/

/-- Fold of `emit` over a byte list: the encoder-side effect of feeding
that symbol stream through `ad`/`bw` in order. -/
def runEnc (st : EncSt) (xs : List ℕ) : EncSt := xs.foldl emit st

/-- In-frame slot position of logical write position `j`: the delay
table entry reduced mod 24. -/
def base (j : ℕ) : ℕ := ((delay j) % 24).toNat

/-- Frame delay of logical write position `j`: `delays[j]` is
`base j - 24 * dly j`. -/
def dly (j : ℕ) : ℕ := (((base j : ℤ) - delay j) / 24).toNat

/-- Output delay in frames of logical position `j`: the byte written at
frame `w` in position `j` is emitted with the frame `w + eDel j`
read-out. -/
def eDel (j : ℕ) : ℕ := 111 - dly j

/-- Ring-buffer slot that the byte of (absolute) frame `w`, position
`j` is written to. -/
def slotZ (w : ℤ) (j : ℕ) : ℕ := 24 * ((111 + w - dly j) % 112).toNat + base j

/-- Output-stream position at which input-stream byte `k` re-appears:
a pure function of `k` and the delay table. -/
def outPos (k : ℕ) : ℕ := 24 * (k / 24 + eDel (k % 24)) + base (k % 24)

/-- The byte of frame `w`, position `j` of an input stream (0 for
negative frames, i.e. the zero-initialised ring-buffer content). -/
def fval (xs : List ℕ) (w : ℤ) (j : ℕ) : ℕ :=
  if 0 ≤ w then xs.getD (24 * w.toNat + j) 0 else 0

/-- The 24 bytes of input frame `t`. -/
def frameList (xs : List ℕ) (t : ℕ) : List ℕ :=
  (List.range 24).map (fun j => xs.getD (24 * t + j) 0)

/-- Frames `t0, …, t0+T-1` of the input stream, concatenated. -/
def framesFrom (xs : List ℕ) (t0 : ℕ) : ℕ → List ℕ
  | 0 => []
  | T + 1 => frameList xs t0 ++ framesFrom xs (t0 + 1) T

/-- The ring-buffer contents after a sequence of writes at frame
counter `nh`, starting from write cursor `pinf` (the write prefix of
the `ad` steps of one frame). -/
def writeSeq (f : ℕ → ℕ) (nh : ℕ) : ℕ → List ℕ → (ℕ → ℕ)
  | _, [] => f
  | pinf, b :: rest =>
    writeSeq (fun i => if i = (n2m nh (delay pinf)).toNat then b else f i)
      nh (pinf + 1) rest

/-- The interleaver-buffer window invariant after `t` complete input
frames: cursor at frame start, `nh = (111 + t) % 112`, and each slot
holds the byte of the unique (frame, position) pair of the last 112
frames that maps to it. -/
def AdWindowInv (xs : List ℕ) (t : ℕ) (s : AdState) : Prop :=
  s.pinf = 0 ∧ s.nh = (111 + t) % 112 ∧
  ∀ w : ℤ, (t : ℤ) - 112 ≤ w → w < t → ∀ j < 24,
    s.intseq (slotZ w j) = fval xs w j

/-- A constant-gray sampling oracle (a flat image). -/
def gFlat (v : ℕ) : G := fun _ _ _ => v

/-- A stream of `n` pairwise-distinct marker bytes. -/
def marks (n : ℕ) : List ℕ := List.range n

/-- The written track indices of a collector state, in write order. -/
def writtenIndices (st : ColSt) : List ℕ := st.written.map Prod.fst

/-- The file bytes produced by the reassembly stage of the reference
parallel pipeline. -/
def reassembledBytes (st : ColSt) : List ℕ := st.written.flatMap Prod.snd

/-- An error-free result per track `0, …, n-1` with data `d`. -/
def okResults (d : ℕ → List ℕ) (n : ℕ) : List TrackResult :=
  (List.range n).map (fun i => ⟨i, d i, false⟩)

/-- The worker-failure scenario of spec §8: a 10-track run whose track-5
worker reports an error (data `[i+1]` for track `i`), results arriving
in index order. -/
def errScenario : List TrackResult :=
  (List.range 10).map (fun i => ⟨i, [i + 1], i == 5⟩)

/-- Removal of the key block `[a, a+n)` from a reassembly buffer (the
net effect of the drain loop's evictions). -/
def dropKeys (buf : List (ℕ × List ℕ)) (a n : ℕ) : List (ℕ × List ℕ) :=
  buf.filter (fun e => ! decide (a ≤ e.1 ∧ e.1 < a + n))

/-- Collector-state invariant relative to the set `S` of error-free
results received so far (data `d`): everything below `next` is
received and written in index order, `next` itself is missing, and the
buffer holds exactly the received indices at or above `next`. -/
def ColInv (d : ℕ → List ℕ) (S : Finset ℕ) (st : ColSt) : Prop :=
  (∀ m, m < st.next → m ∈ S) ∧
  st.next ∉ S ∧
  st.written = (List.range st.next).map (fun i => (i, d i)) ∧
  (∀ k, k ∈ st.buf.map Prod.fst ↔ (k ∈ S ∧ st.next ≤ k)) ∧
  (st.buf.map Prod.fst).Nodup ∧
  (∀ e ∈ st.buf, e.2 = d e.1)

/-! ## Interleaver index bounds and state invariant -/

/-- The interleaver-state invariant: write cursor in `[0,23]`, frame
counter in `[0,111]`. -/
def AdInv (s : AdState) : Prop := s.pinf < 24 ∧ s.nh < 112

theorem adInit_inv : AdInv adInit := by constructor <;> decide

/-- Every delay-table entry lies in `[-2688, 0)`. -/
theorem delay_bounds : ∀ j < 24, -2688 ≤ delay j ∧ delay j < 0 := by decide

/-- For an in-range frame counter and write cursor, the write index
computed by `n2m` is the mod-2688 reduction of `nh*24 + delays[j]`, and
it lies in `[0, 2688)`. -/
theorem n2m_write_spec (nh j : ℕ) (hnh : nh < 112) (hj : j < 24) :
    0 ≤ n2m nh (delay j) ∧ n2m nh (delay j) < 2688 ∧
      n2m nh (delay j) = ((nh : ℤ) * 24 + delay j) % 2688 := by
  obtain ⟨hlo, hhi⟩ := delay_bounds j hj
  unfold n2m
  dsimp only
  have h24 : (nh : ℤ) * 24 ≤ 111 * 24 := by
    have : (nh : ℤ) ≤ 111 := by exact_mod_cast Nat.lt_succ_iff.mp hnh
    nlinarith
  have h0 : (0 : ℤ) ≤ (nh : ℤ) * 24 := by positivity
  split <;> rename_i h1
  · omega
  · split <;> rename_i h2 <;> omega

/-- For an in-range frame counter and a read offset `n ∈ [0, 24)`, the
read index computed by `n2m` is `nh*24 + n` itself, which is the
mod-2688 reduction and lies in `[0, 2688)`. -/
theorem n2m_read_spec (nh n : ℕ) (hnh : nh < 112) (hn : n < 24) :
    0 ≤ n2m nh (n : ℤ) ∧ n2m nh (n : ℤ) < 2688 ∧
      n2m nh (n : ℤ) = ((nh : ℤ) * 24 + n) % 2688 := by
  unfold n2m
  dsimp only
  have h24 : (nh : ℤ) * 24 ≤ 111 * 24 := by
    have : (nh : ℤ) ≤ 111 := by exact_mod_cast Nat.lt_succ_iff.mp hnh
    nlinarith
  have h0 : (0 : ℤ) ≤ (nh : ℤ) * 24 := by positivity
  have hn' : (n : ℤ) < 24 := by exact_mod_cast hn
  have hn0 : (0 : ℤ) ≤ (n : ℤ) := by positivity
  split <;> rename_i h1
  · omega
  · split <;> rename_i h2 <;> omega

/-- `adStep` preserves the interleaver-state invariant. -/
theorem adStep_inv (s : AdState) (b : ℕ) (h : AdInv s) :
    AdInv (adStep s b).1 := by
  obtain ⟨hp, hn⟩ := h
  unfold adStep AdInv
  split <;> rename_i hbr
  · refine ⟨by norm_num, ?_⟩
    simp only
    split <;> omega
  · exact ⟨by simpa using Nat.lt_of_not_ge (fun hc => hbr (by omega)), hn⟩

/-- Every state reachable by feeding a byte stream from the initial
state satisfies the invariant. -/
theorem adRun_inv (s : AdState) (xs : List ℕ) (h : AdInv s) :
    AdInv (adRun s xs).1 := by
  induction xs generalizing s with
  | nil => exact h
  | cons b rest ih =>
    simpa [adRun] using ih (adStep s b).1 (adStep_inv s b h)

/-! ## Interleaver stream characterization -/

/-- Decomposition of the delay table: `delays[j] = base j - 24 * dly j`
with `base j < 24` and `3 ≤ dly j ≤ 108`. -/
theorem delay_decomp : ∀ j < 24,
    delay j = (base j : ℤ) - 24 * (dly j : ℤ) ∧
      base j < 24 ∧ 3 ≤ dly j ∧ dly j ≤ 108 := by decide

/-- The in-frame slot positions of the 24 logical write positions are
pairwise distinct. -/
theorem base_inj : ∀ j < 24, ∀ j' < 24, base j = base j' → j = j' := by decide

/-- The slot written for frame `t`, position `j` (the index `n2m`
computes from the pre-increment frame counter) is `slotZ t j`. -/
theorem write_slot (t j : ℕ) (hj : j < 24) :
    (n2m ((111 + t) % 112) (delay j)).toNat = slotZ (t : ℤ) j := by
  obtain ⟨hdec, hb, hd3, hd8⟩ := delay_decomp j hj
  unfold n2m slotZ
  dsimp only
  rw [hdec]
  split <;> rename_i h1
  · omega
  · split <;> rename_i h2 <;> omega

/-- The slot read while emitting frame `t`, position `i = base j`, is
the slot that frame `t - eDel j` wrote position `j` to. -/
theorem read_slot (t j : ℕ) (hj : j < 24) :
    (n2m (t % 112) ((base j : ℕ) : ℤ)).toNat = slotZ ((t : ℤ) - eDel j) j := by
  obtain ⟨hdec, hb, hd3, hd8⟩ := delay_decomp j hj
  unfold n2m slotZ eDel
  dsimp only
  split <;> rename_i h1
  · omega
  · split <;> rename_i h2 <;> omega

/-- Different in-frame positions are written to different slots, at any
frames. -/
theorem slotZ_ne_of_j_ne (w w' : ℤ) (j j' : ℕ) (hj : j < 24) (hj' : j' < 24)
    (hne : j ≠ j') : slotZ w j ≠ slotZ w' j' := by
  intro h
  obtain ⟨_, hb, _, _⟩ := delay_decomp j hj
  obtain ⟨_, hb', _, _⟩ := delay_decomp j' hj'
  have : base j = base j' := by
    unfold slotZ at h
    omega
  exact hne (base_inj j hj j' hj' this)

/-- The same in-frame position is written to different slots at frames
less than 112 apart. -/
theorem slotZ_ne_of_w_ne (w w' : ℤ) (j : ℕ)
    (hlt : w < w') (hwin : w' - w < 112) : slotZ w j ≠ slotZ w' j := by
  intro h
  unfold slotZ at h
  omega

/-- `adStep` on a non-final write cursor: write only, no emission. -/
theorem adStep_write (s : AdState) (b : ℕ) (h : ¬ s.pinf + 1 ≥ 24) :
    adStep s b =
      (⟨fun i => if i = (n2m s.nh (delay s.pinf)).toNat then b else s.intseq i,
        s.nh, s.pinf + 1⟩, []) := by
  unfold adStep
  rw [if_neg h]

/-- `adStep` on the final write cursor of a frame: write, advance the
frame counter, emit the 24 bytes at the new frame position. -/
theorem adStep_emit (s : AdState) (b : ℕ) (h : s.pinf + 1 ≥ 24) :
    adStep s b =
      (⟨fun i => if i = (n2m s.nh (delay s.pinf)).toNat then b else s.intseq i,
        if s.nh + 1 ≥ 112 then 0 else s.nh + 1, 0⟩,
        (List.range 24).map (fun (i : ℕ) =>
          (fun i2 => if i2 = (n2m s.nh (delay s.pinf)).toNat then b
            else s.intseq i2)
            (n2m (if s.nh + 1 ≥ 112 then 0 else s.nh + 1) (i : ℤ)).toNat)) := by
  unfold adStep
  rw [if_pos h]

/-- Composition of `adRun` over list concatenation. -/
theorem adRun_append (s : AdState) (as bs : List ℕ) :
    adRun s (as ++ bs) =
      ((adRun (adRun s as).1 bs).1,
        (adRun s as).2 ++ (adRun (adRun s as).1 bs).2) := by
  induction as generalizing s with
  | nil => simp [adRun]
  | cons a rest ih =>
    simp only [List.cons_append, adRun, List.append_eq, ih (adStep s a).1,
      List.append_assoc]

/-- A run that never completes a frame emits nothing. -/
theorem adRun_small (bs : List ℕ) : ∀ s : AdState,
    s.pinf + bs.length < 24 → (adRun s bs).2 = [] := by
  induction bs with
  | nil => intro s _; rfl
  | cons b rest ih =>
    intro s h
    simp only [List.length_cons] at h
    simp only [adRun, adStep_write s b (by omega)]
    exact ih _ (by show s.pinf + 1 + rest.length < 24; omega)

/-- Running one full frame of 24 bytes from a frame-start state: all
24 bytes are written at the pre-increment frame counter, the counter
advances (mod 112), the cursor returns to 0, and the 24 bytes at the
new frame position are emitted. -/
theorem adRun_chunk : ∀ (bs : List ℕ) (s : AdState),
    s.pinf < 24 → s.pinf + bs.length = 24 →
    adRun s bs =
      (⟨writeSeq s.intseq s.nh s.pinf bs,
        if s.nh + 1 ≥ 112 then 0 else s.nh + 1, 0⟩,
        (List.range 24).map (fun (i : ℕ) =>
          writeSeq s.intseq s.nh s.pinf bs
            (n2m (if s.nh + 1 ≥ 112 then 0 else s.nh + 1) (i : ℤ)).toNat)) := by
  intro bs
  induction bs with
  | nil =>
    intro s hlt hlen
    simp only [List.length_nil] at hlen
    omega
  | cons b rest ih =>
    intro s hlt hlen
    simp only [List.length_cons] at hlen
    by_cases hbr : s.pinf + 1 ≥ 24
    · have hrest : rest = [] := List.length_eq_zero.mp (by omega)
      subst hrest
      simp only [adRun, adStep_emit s b hbr, List.append_nil, writeSeq]
    · simp only [adRun, adStep_write s b hbr]
      rw [ih ⟨_, s.nh, s.pinf + 1⟩ (by show s.pinf + 1 < 24; omega)
        (by show s.pinf + 1 + rest.length = 24; omega)]
      rfl

/-- A slot not targeted by any of the writes of a `writeSeq` run keeps
its value. -/
theorem writeSeq_untouched : ∀ (bs : List ℕ) (f : ℕ → ℕ) (nh p : ℕ) (x : ℕ),
    (∀ m < bs.length, x ≠ (n2m nh (delay (p + m))).toNat) →
    writeSeq f nh p bs x = f x := by
  intro bs
  induction bs with
  | nil => intro f nh p x _; rfl
  | cons b rest ih =>
    intro f nh p x hx
    simp only [writeSeq]
    rw [ih _ nh (p + 1) x (fun m hm => by
      have h2 := hx (m + 1) (by simp only [List.length_cons]; omega)
      rwa [show p + (m + 1) = p + 1 + m from by omega] at h2)]
    have h0 := hx 0 (by simp)
    simp only [Nat.add_zero] at h0
    rw [if_neg h0]

/-- The slot targeted by the `m`-th write of a `writeSeq` run holds the
`m`-th byte, provided no later write of the run targets the same
slot. -/
theorem writeSeq_at : ∀ (bs : List ℕ) (f : ℕ → ℕ) (nh p : ℕ) (m : ℕ),
    m < bs.length →
    (∀ m' < bs.length, m < m' →
      (n2m nh (delay (p + m'))).toNat ≠ (n2m nh (delay (p + m))).toNat) →
    writeSeq f nh p bs ((n2m nh (delay (p + m))).toNat) = bs.getD m 0 := by
  intro bs
  induction bs with
  | nil => intro f nh p m hm; simp at hm
  | cons b rest ih =>
    intro f nh p m hm hsep
    match m with
    | 0 =>
      simp only [writeSeq, Nat.add_zero]
      have hnt : ∀ m' < rest.length,
          (n2m nh (delay p)).toNat ≠ (n2m nh (delay (p + 1 + m'))).toNat := by
        intro m' hm'
        have h2 := hsep (m' + 1) (by simp only [List.length_cons]; omega)
          (by omega)
        rw [show p + (m' + 1) = p + 1 + m' from by omega, Nat.add_zero] at h2
        exact h2.symm
      rw [writeSeq_untouched rest _ nh (p + 1) _ hnt]
      simp
    | m + 1 =>
      simp only [writeSeq]
      rw [show p + (m + 1) = (p + 1) + m from by omega]
      rw [ih _ nh (p + 1) m (by simp only [List.length_cons] at hm; omega)
        (fun m' hm' hmm' => by
          have h2 := hsep (m' + 1) (by simp only [List.length_cons]; omega)
            (by omega)
          rw [show p + (m' + 1) = (p + 1) + m' from by omega] at h2
          rwa [show p + (m + 1) = (p + 1) + m from by omega] at h2)]
      simp

/-- `getD` through `map` over `range`. -/
theorem getD_map_range (n k : ℕ) (f : ℕ → ℕ) (hk : k < n) :
    ((List.range n).map f).getD k 0 = f k := by
  simp [List.getD_eq_getElem?_getD, List.getElem?_map, List.getElem?_range, hk]

/-- `eDel` bounds. -/
theorem eDel_bounds (j : ℕ) (hj : j < 24) : 3 ≤ eDel j ∧ eDel j ≤ 108 := by
  obtain ⟨_, _, h3, h8⟩ := delay_decomp j hj
  unfold eDel
  omega

/-- Processing one more input frame preserves the window invariant and
emits, at position `base j` of the frame read-out, the byte written
`eDel j` frames earlier at logical position `j`. -/
theorem inv_step (xs : List ℕ) (t : ℕ) (s : AdState) (h : AdWindowInv xs t s) :
    AdWindowInv xs (t + 1) (adRun s (frameList xs t)).1 ∧
      ∀ j < 24, (adRun s (frameList xs t)).2.getD (base j) 0 =
        fval xs ((t : ℤ) - eDel j) j := by
  obtain ⟨hp, hnh, hbuf⟩ := h
  have hlen : (frameList xs t).length = 24 := by simp [frameList]
  have hchunk := adRun_chunk (frameList xs t) s (by omega) (by omega)
  have hws : ∀ j < 24, (n2m s.nh (delay j)).toNat = slotZ (t : ℤ) j := by
    intro j hj
    rw [hnh]
    exact write_slot t j hj
  -- buffer characterization after the frame's 24 writes
  have hW : ∀ w : ℤ, (t : ℤ) + 1 - 112 ≤ w → w < (t : ℤ) + 1 → ∀ j < 24,
      writeSeq s.intseq s.nh s.pinf (frameList xs t) (slotZ w j) = fval xs w j := by
    intro w hwlo hwhi j hj
    by_cases hwt : w = (t : ℤ)
    · subst hwt
      have hsep : ∀ m' < (frameList xs t).length, j < m' →
          (n2m s.nh (delay (s.pinf + m'))).toNat ≠
            (n2m s.nh (delay (s.pinf + j))).toNat := by
        intro m' hm' hjm'
        rw [hlen] at hm'
        rw [hp, Nat.zero_add, Nat.zero_add, hws m' hm', hws j hj]
        exact slotZ_ne_of_j_ne _ _ m' j hm' hj (by omega)
      have hval := writeSeq_at (frameList xs t) s.intseq s.nh s.pinf j
        (by omega) hsep
      rw [hp, Nat.zero_add, hws j hj] at hval
      rw [hp]
      rw [hval, frameList, getD_map_range 24 j _ hj]
      unfold fval
      rw [if_pos (by positivity)]
      simp
    · have hwlt : w < (t : ℤ) := by omega
      rw [writeSeq_untouched (frameList xs t) s.intseq s.nh s.pinf (slotZ w j)
        (by
          intro m hm
          rw [hlen] at hm
          rw [hp, Nat.zero_add, hws m hm]
          by_cases hmj : m = j
          · subst hmj
            exact slotZ_ne_of_w_ne w t m hwlt (by omega)
          · exact fun he => slotZ_ne_of_j_ne t w m j hm hj
              (fun hh => hmj hh) he.symm)]
      exact hbuf w (by omega) hwlt j hj
  constructor
  · rw [hchunk]
    refine ⟨rfl, by simp only [hnh]; split <;> omega, ?_⟩
    intro w hwlo hwhi j hj
    simp only
    exact hW w (by omega) (by omega) j hj
  · intro j hj
    rw [hchunk]
    simp only
    obtain ⟨_, hb, _, _⟩ := delay_decomp j hj
    rw [getD_map_range 24 (base j) _ hb]
    have hnh1 : (if s.nh + 1 ≥ 112 then 0 else s.nh + 1) = t % 112 := by
      rw [hnh]; split <;> omega
    rw [hnh1, read_slot t j hj]
    obtain ⟨he3, he8⟩ := eDel_bounds j hj
    exact hW ((t : ℤ) - eDel j) (by omega) (by omega) j hj

/-- Running a block of `T` whole frames: the window invariant advances
by `T` frames, and output byte `24*u + base j` is the input byte of
frame `t0 + u - eDel j`, position `j`. -/
theorem adRun_frames (xs : List ℕ) : ∀ (T t0 : ℕ) (s : AdState),
    AdWindowInv xs t0 s →
    AdWindowInv xs (t0 + T) (adRun s (framesFrom xs t0 T)).1 ∧
    (adRun s (framesFrom xs t0 T)).2.length = 24 * T ∧
    ∀ u < T, ∀ j < 24,
      (adRun s (framesFrom xs t0 T)).2.getD (24 * u + base j) 0 =
        fval xs ((t0 : ℤ) + u - eDel j) j := by
  intro T
  induction T with
  | zero =>
    intro t0 s h
    refine ⟨h, rfl, ?_⟩
    intro u hu
    omega
  | succ T ih =>
    intro t0 s h
    have hfl : (frameList xs t0).length = 24 := by simp [frameList]
    obtain ⟨hinv1, hout1⟩ := inv_step xs t0 s h
    have hrec := ih (t0 + 1) (adRun s (frameList xs t0)).1 hinv1
    have happ := adRun_append s (frameList xs t0) (framesFrom xs (t0 + 1) T)
    have hfirstlen : (adRun s (frameList xs t0)).2.length = 24 := by
      obtain ⟨hp, _, _⟩ := h
      rw [adRun_chunk (frameList xs t0) s (by omega) (by omega)]
      simp
    constructor
    · show AdWindowInv xs (t0 + (T + 1)) _
      rw [show framesFrom xs t0 (T + 1) =
        frameList xs t0 ++ framesFrom xs (t0 + 1) T from rfl, happ]
      have := hrec.1
      rwa [show t0 + 1 + T = t0 + (T + 1) from by omega] at this
    constructor
    · rw [show framesFrom xs t0 (T + 1) =
        frameList xs t0 ++ framesFrom xs (t0 + 1) T from rfl, happ]
      simp only [List.length_append, hfirstlen, hrec.2.1]
      ring
    · intro u hu j hj
      rw [show framesFrom xs t0 (T + 1) =
        frameList xs t0 ++ framesFrom xs (t0 + 1) T from rfl, happ]
      obtain ⟨_, hb, _, _⟩ := delay_decomp j hj
      match u with
      | 0 =>
        simp only [Nat.mul_zero, Nat.zero_add]
        rw [List.getD_append _ _ _ _ (by omega)]
        have := hout1 j hj
        rw [this]
        norm_num
      | u + 1 =>
        rw [List.getD_append_right _ _ _ _ (by omega)]
        have := hrec.2.2 u (by omega) j hj
        rw [show 24 * (u + 1) + base j - (adRun s (frameList xs t0)).2.length =
          24 * u + base j from by omega]
        rw [this]
        congr 1
        push_cast
        ring

/-- `framesFrom` reads off a contiguous block of the input stream. -/
theorem framesFrom_eq_take (xs : List ℕ) : ∀ (T t0 : ℕ),
    24 * (t0 + T) ≤ xs.length →
    framesFrom xs t0 T = (xs.drop (24 * t0)).take (24 * T) := by
  intro T
  induction T with
  | zero => intro t0 _; rfl
  | succ T ih =>
    intro t0 hlen
    have h1 : frameList xs t0 = (xs.drop (24 * t0)).take 24 := by
      apply List.ext_getElem
      · simp only [frameList, List.length_map, List.length_range,
          List.length_take, List.length_drop]
        omega
      · intro i hi hi'
        simp only [frameList] at hi
        simp only [List.length_map, List.length_range] at hi
        simp only [frameList, List.getElem_map, List.getElem_range]
        rw [List.getElem_take, List.getElem_drop]
        exact List.getD_eq_getElem xs 0 (by omega)
    show frameList xs t0 ++ framesFrom xs (t0 + 1) T = _
    rw [h1, ih (t0 + 1) (by omega)]
    rw [show 24 * (T + 1) = 24 + 24 * T from by ring, List.take_add,
      List.drop_drop]
    congr 2

/-- The output of the interleaver on an arbitrary input stream has
`24 * (length / 24)` bytes (only whole frames are emitted). -/
theorem interleave_length (xs : List ℕ) :
    (interleave xs).length = 24 * (xs.length / 24) := by
  have hinv0 : AdWindowInv xs 0 adInit := by
    refine ⟨rfl, rfl, ?_⟩
    intro w _ hw j _
    unfold fval
    rw [if_neg (by omega)]
    rfl
  have hsplit : xs = framesFrom xs 0 (xs.length / 24) ++
      xs.drop (24 * (xs.length / 24)) := by
    rw [framesFrom_eq_take xs (xs.length / 24) 0 (by omega)]
    simp only [Nat.mul_zero, List.drop_zero]
    exact (List.take_append_drop _ xs).symm
  obtain ⟨hinvT, hlenT, _⟩ := adRun_frames xs (xs.length / 24) 0 adInit hinv0
  unfold interleave
  rw [show adRun adInit xs = adRun adInit (framesFrom xs 0 (xs.length / 24) ++
      xs.drop (24 * (xs.length / 24))) from by rw [← hsplit]]
  rw [adRun_append]
  have htail : (adRun (adRun adInit (framesFrom xs 0 (xs.length / 24))).1
      (xs.drop (24 * (xs.length / 24)))).2 = [] := by
    apply adRun_small
    obtain ⟨hp, _, _⟩ := hinvT
    rw [hp, List.length_drop]
    omega
  simp only [List.length_append, htail, List.length_nil, hlenT]
  omega

/-- Output byte `24*u + base j` of the interleaver is input byte
`24*(u - eDel j) + j`, for frames `u` inside the emitted range with
`u ≥ eDel j` (earlier output positions hold the ring buffer's initial
zeros). -/
theorem interleave_getD_frames (xs : List ℕ) (u j : ℕ)
    (hu : u < xs.length / 24) (hj : j < 24) :
    (interleave xs).getD (24 * u + base j) 0 =
      fval xs ((u : ℤ) - eDel j) j := by
  have hinv0 : AdWindowInv xs 0 adInit := by
    refine ⟨rfl, rfl, ?_⟩
    intro w _ hw j' _
    unfold fval
    rw [if_neg (by omega)]
    rfl
  have hsplit : xs = framesFrom xs 0 (xs.length / 24) ++
      xs.drop (24 * (xs.length / 24)) := by
    rw [framesFrom_eq_take xs (xs.length / 24) 0 (by omega)]
    simp only [Nat.mul_zero, List.drop_zero]
    exact (List.take_append_drop _ xs).symm
  obtain ⟨hinvT, hlenT, hgetT⟩ :=
    adRun_frames xs (xs.length / 24) 0 adInit hinv0
  unfold interleave
  rw [show adRun adInit xs = adRun adInit (framesFrom xs 0 (xs.length / 24) ++
      xs.drop (24 * (xs.length / 24))) from by rw [← hsplit]]
  rw [adRun_append]
  have htail : (adRun (adRun adInit (framesFrom xs 0 (xs.length / 24))).1
      (xs.drop (24 * (xs.length / 24)))).2 = [] := by
    apply adRun_small
    obtain ⟨hp, _, _⟩ := hinvT
    rw [hp, List.length_drop]
    omega
  rw [htail, List.append_nil]
  have := hgetT u hu j hj
  rw [this]
  congr 1
  push_cast
  ring

/-- The marked output position of input byte `k`: `interleave` places
input byte `k` at output position `outPos k` whenever that position is
within the emitted output. -/
theorem interleave_outPos (xs : List ℕ) (k : ℕ) (hk : k < xs.length)
    (hout : outPos k < (interleave xs).length) :
    (interleave xs).getD (outPos k) 0 = xs.getD k 0 := by
  have hj : k % 24 < 24 := Nat.mod_lt _ (by norm_num)
  have hlen := interleave_length xs
  have hu : k / 24 + eDel (k % 24) < xs.length / 24 := by
    obtain ⟨_, hb, _, _⟩ := delay_decomp (k % 24) hj
    unfold outPos at hout
    omega
  have := interleave_getD_frames xs (k / 24 + eDel (k % 24)) (k % 24) hu hj
  unfold outPos
  rw [this]
  unfold fval
  rw [if_pos (by push_cast; omega)]
  congr 1
  omega

/-- `outPos` is injective: distinct input positions land at distinct
output positions. -/
theorem outPos_injective : Function.Injective outPos := by
  intro k k' h
  have hj : k % 24 < 24 := Nat.mod_lt _ (by norm_num)
  have hj' : k' % 24 < 24 := Nat.mod_lt _ (by norm_num)
  obtain ⟨_, hb, _, _⟩ := delay_decomp (k % 24) hj
  obtain ⟨_, hb', _, _⟩ := delay_decomp (k' % 24) hj'
  unfold outPos at h
  have hbase : base (k % 24) = base (k' % 24) := by omega
  have hmod : k % 24 = k' % 24 := base_inj _ hj _ hj' hbase
  have hdiv : k / 24 + eDel (k % 24) = k' / 24 + eDel (k' % 24) := by omega
  rw [hmod] at hdiv
  omega

/-! ## Sequential-encoder factorization: machine run = symbols, then
interleaver, then sector buffer -/

/-- Chaining bytes through `bw` leaves the interleaver alone and
appends exactly those bytes to `fileOut ++ sect`. -/
theorem bw_foldl (ys : List ℕ) : ∀ st : EncSt,
    (ys.foldl bwStep st).ad = st.ad ∧
    (ys.foldl bwStep st).fileOut ++ (ys.foldl bwStep st).sect =
      st.fileOut ++ st.sect ++ ys := by
  induction ys with
  | nil => intro st; simp
  | cons y rest ih =>
    intro st
    obtain ⟨iha, ihb⟩ := ih (bwStep st y)
    refine ⟨?_, ?_⟩
    · rw [List.foldl_cons, iha]
      unfold bwStep
      dsimp only
      split <;> rfl
    · rw [List.foldl_cons, ihb]
      unfold bwStep
      dsimp only
      split <;> simp


/-- One `emit` advances the interleaver one step and appends that
step's frame output (if any) to `fileOut ++ sect`. -/
theorem emit_spec (st : EncSt) (b : ℕ) :
    (emit st b).ad = (adStep st.ad b).1 ∧
    (emit st b).fileOut ++ (emit st b).sect =
      st.fileOut ++ st.sect ++ (adStep st.ad b).2 := by
  unfold emit
  obtain ⟨h1, h2⟩ := bw_foldl (adStep st.ad b).2
    ⟨(adStep st.ad b).1, st.sect, st.fileOut⟩
  exact ⟨h1, h2⟩

/-- Folding `emit` over a symbol stream is the interleaver run on that
stream, with its output appended to `fileOut ++ sect`. -/
theorem runEnc_spec (xs : List ℕ) : ∀ st : EncSt,
    (runEnc st xs).ad = (adRun st.ad xs).1 ∧
    (runEnc st xs).fileOut ++ (runEnc st xs).sect =
      st.fileOut ++ st.sect ++ (adRun st.ad xs).2 := by
  induction xs with
  | nil => intro st; exact ⟨rfl, by simp [runEnc, adRun]⟩
  | cons b rest ih =>
    intro st
    obtain ⟨e1, e2⟩ := emit_spec st b
    obtain ⟨i1, i2⟩ := ih (emit st b)
    constructor
    · show (runEnc (emit st b) rest).ad = _
      rw [i1, e1]
      rfl
    · show (runEnc (emit st b) rest).fileOut ++ (runEnc (emit st b) rest).sect = _
      rw [i2, e2, e1]
      show _ = st.fileOut ++ st.sect ++
        ((adStep st.ad b).2 ++ (adRun (adStep st.ad b).1 rest).2)
      simp [List.append_assoc]

/-- `runEnc` composes over stream concatenation. -/
theorem runEnc_append (st : EncSt) (xs ys : List ℕ) :
    runEnc st (xs ++ ys) = runEnc (runEnc st xs) ys := by
  unfold runEnc
  exact List.foldl_append ..

/-- The per-track sample loop emits exactly the per-track symbol list
and leaves `zf` advanced by the sample count mod 5. -/
theorem trackLoop_spec (g : G) (ri : ℚ) (itr : ℤ) (zs : ℕ) :
    ∀ (cnt i zf : ℕ) (st : EncSt), zf < 5 →
    trackLoop g ri itr zs i cnt zf st =
      ((zf + cnt) % 5, runEnc st (symList g ri itr zs i cnt zf)) := by
  intro cnt
  induction cnt with
  | zero =>
    intro i zf st h5
    show (zf, st) = ((zf + 0) % 5, runEnc st [])
    rw [Nat.add_zero, Nat.mod_eq_of_lt h5]
    rfl
  | succ cnt ih =>
    intro i zf st h5
    show trackLoop g ri itr zs (i + 1) cnt (zfNext zf)
        (emit st (sampleByte (g ri itr i) zs zf)) = _
    rw [ih (i + 1) (zfNext zf) _ (by unfold zfNext; split <;> omega)]
    have hzf : (zfNext zf + cnt) % 5 = (zf + (cnt + 1)) % 5 := by
      unfold zfNext
      split <;> omega
    rw [hzf]
    rfl

/-- `zf` stays in `[0,5)` along the sequential control recurrence. -/
theorem ctlSeq_zf_lt (p : Params) : ∀ t : ℕ, (ctlSeq p t).zf < 5 := by
  intro t
  induction t with
  | zero => exact Nat.zero_lt_succ 4
  | succ t _ =>
    show ((ctlSeq p t).zf + (truncInt (ctlSeq p t).tr).toNat) % 5 < 5
    omega

/-- One `Convert` loop body advances the control state by `ctlStep` and
feeds exactly the track's symbol list through the interleaver/sector
stage (the padding loop of part_003 lines 185-197 runs zero times). -/
theorem convertBody_spec (g : G) (p : Params) (ctl : Ctl) (st : EncSt)
    (h5 : ctl.zf < 5) :
    convertBody g p ctl st = (ctlStep p ctl, runEnc st (trackSyms g ctl)) := by
  unfold convertBody
  dsimp only
  rw [trackLoop_spec g (riOf ctl.r) (truncInt ctl.tr) ctl.zs
    (truncInt ctl.tr).toNat 0 ctl.zf st h5]
  rw [show (truncInt (ctl.c + ctl.tr) - truncInt (ctl.c + ctl.tr)).toNat = 0
    from by omega]
  rfl

/-- The `Convert` while-loop, started at iteration `t` of the control
recurrence with `T` more iterations until the guard fails: it runs the
`T` tracks' symbol streams through the encoder and reports the `T`
progress values, then flushes. -/
theorem convertLoop_spec (g : G) (p : Params) : ∀ (T t fuel : ℕ)
    (st : EncSt) (prog : List ℤ),
    (∀ u < T, loopCond p (ctlSeq p (t + u))) →
    ¬ loopCond p (ctlSeq p (t + T)) →
    T < fuel →
    convertLoop g p fuel (ctlSeq p t) st prog =
      some (finalize (runEnc st (symsRange g p T t)),
        prog ++ progRange p T t) := by
  intro T
  induction T with
  | zero =>
    intro t fuel st prog _ hstop hfuel
    obtain ⟨f, rfl⟩ := Nat.exists_eq_succ_of_ne_zero (by omega : fuel ≠ 0)
    show (if loopCond p (ctlSeq p t) then _ else _) = _
    rw [if_neg (by simpa using hstop)]
    show some (finalize st, prog) = _
    simp [symsRange, progRange, runEnc]
  | succ T ih =>
    intro t fuel st prog hrun hstop hfuel
    obtain ⟨f, rfl⟩ := Nat.exists_eq_succ_of_ne_zero (by omega : fuel ≠ 0)
    show (if loopCond p (ctlSeq p t) then _ else _) = _
    rw [if_pos (by simpa using hrun 0 (by omega))]
    rw [convertBody_spec g p (ctlSeq p t) st (ctlSeq_zf_lt p t)]
    show convertLoop g p f (ctlSeq p (t + 1)) _ _ = _
    rw [ih (t + 1) f (runEnc st (trackSyms g (ctlSeq p t)))
      (prog ++ [truncInt (100 * (ctlSeq p t).c / totalQ p)])
      (fun u hu => by
        have := hrun (u + 1) (by omega)
        rwa [show t + (u + 1) = t + 1 + u from by omega] at this)
      (by
        have := hstop
        rwa [show t + (T + 1) = t + 1 + T from by omega] at this)
      (by omega)]
    rw [← runEnc_append]
    show _ = some (finalize (runEnc st (trackSyms g (ctlSeq p t) ++
      symsRange g p T (t + 1))), prog ++ progRange p (T + 1) t)
    simp [progRange, List.append_assoc]

/-- `Convert` on a terminating parameter set: the output file is the
interleaved sequential symbol stream and the reported progress values
are `progList` (flushing writes the full interleaver output). -/
theorem convert_spec (g : G) (p : Params) (N fuel : ℕ)
    (hterm : TerminatesAt p N) (hfuel : N < fuel) :
    convert g p fuel = some (interleave (seqSyms g p N), progList p N) := by
  unfold convert
  rw [show ctlInit p = ctlSeq p 0 from rfl]
  rw [convertLoop_spec g p N 0 fuel encInit []
    (fun u hu => by simpa using hterm.1 u hu)
    (by simpa using hterm.2) hfuel]
  obtain ⟨h1, h2⟩ := runEnc_spec (symsRange g p N 0) encInit
  unfold finalize
  rw [h2]
  rfl

/-! ## Sequential / parallel correspondence -/

/-- The worker's per-sample loop computes exactly the sequential
per-sample loop's symbols (the two Go loops are line-for-line
identical). -/
theorem ptLoop_eq_symList (g : G) (ri : ℚ) (itr : ℤ) (zs : ℕ) :
    ∀ (cnt i zf : ℕ), ptLoop g ri itr zs i cnt zf = symList g ri itr zs i cnt zf := by
  intro cnt
  induction cnt with
  | zero => intro i zf; rfl
  | succ cnt ih =>
    intro i zf
    show _ :: ptLoop g ri itr zs (i + 1) cnt (zfNext zf) = _
    rw [ih (i + 1) (zfNext zf)]
    rfl

/-- The reference job generator tracks the sequential control
recurrence in `tr`, `r`, `c` and `zs`, carries `trackIndex = t`, and
never moves `zf` off `0`. -/
theorem genSeq_spec (p : Params) : ∀ t : ℕ,
    (genSeq p t).tr = (ctlSeq p t).tr ∧ (genSeq p t).r = (ctlSeq p t).r ∧
    (genSeq p t).c = (ctlSeq p t).c ∧ (genSeq p t).zs = (ctlSeq p t).zs ∧
    (genSeq p t).zf = 0 ∧ (genSeq p t).trackIndex = t := by
  intro t
  induction t with
  | zero => exact ⟨rfl, rfl, rfl, rfl, rfl, rfl⟩
  | succ t ih =>
    obtain ⟨h1, h2, h3, h4, h5, h6⟩ := ih
    exact ⟨by show (genSeq p t).tr + p.dtr = (ctlSeq p t).tr + p.dtr; rw [h1],
      by show (genSeq p t).r + drOf p = (ctlSeq p t).r + drOf p; rw [h2],
      by show (genSeq p t).c + (genSeq p t).tr = (ctlSeq p t).c + (ctlSeq p t).tr
         rw [h1, h3],
      by show (if (genSeq p t).zs + 1 ≥ 17 then 0 else (genSeq p t).zs + 1) = _
         rw [h4]; rfl,
      by show (genSeq p t).zf = 0; exact h5,
      by show (genSeq p t).trackIndex + 1 = t + 1; rw [h6]⟩

/-- The zf-corrected job generator agrees with the sequential control
recurrence on every field a worker consumes. -/
theorem genSeqFixed_spec (p : Params) : ∀ t : ℕ,
    (genSeqFixed p t).tr = (ctlSeq p t).tr ∧
    (genSeqFixed p t).r = (ctlSeq p t).r ∧
    (genSeqFixed p t).zs = (ctlSeq p t).zs ∧
    (genSeqFixed p t).zf = (ctlSeq p t).zf := by
  intro t
  induction t with
  | zero => exact ⟨rfl, rfl, rfl, rfl⟩
  | succ t ih =>
    obtain ⟨h1, h2, h4, h5⟩ := ih
    refine ⟨?_, ?_, ?_, ?_⟩
    · show (genSeqFixed p t).tr + p.dtr = (ctlSeq p t).tr + p.dtr
      rw [h1]
    · show (genSeqFixed p t).r + drOf p = (ctlSeq p t).r + drOf p
      rw [h2]
    · show (if (genSeqFixed p t).zs + 1 ≥ 17 then 0 else (genSeqFixed p t).zs + 1) = _
      rw [h4]; rfl
    · show ((genSeqFixed p t).zf + (truncInt (genSeqFixed p t).tr).toNat) % 5 = _
      rw [h1, h5]; rfl

/-- A zf-corrected worker produces exactly the sequential track's
symbol stream. -/
theorem processTrack_fixed_eq (g : G) (p : Params) (t : ℕ) :
    processTrack g (jobOf (genSeqFixed p t)) = trackSyms g (ctlSeq p t) := by
  obtain ⟨h1, h2, h4, h5⟩ := genSeqFixed_spec p t
  unfold processTrack jobOf trackSyms
  simp only [h1, h2, h4, h5]
  exact ptLoop_eq_symList g _ _ _ _ 0 _

/-- The zf-corrected parallel stream equals the sequential symbol
stream, track block by track block. -/
theorem parSymsFixed_eq_symsRange (g : G) (p : Params) : ∀ T t0 : ℕ,
    parSymsFixed g p T t0 = symsRange g p T t0 := by
  intro T
  induction T with
  | zero => intro t0; rfl
  | succ T ih =>
    intro t0
    show processTrack g (jobOf (genSeqFixed p t0)) ++ parSymsFixed g p T (t0 + 1) = _
    rw [processTrack_fixed_eq g p t0, ih (t0 + 1)]
    rfl

/-- Splitting a block of sequential tracks. -/
theorem symsRange_add (g : G) (p : Params) : ∀ (T1 T2 t0 : ℕ),
    symsRange g p (T1 + T2) t0 =
      symsRange g p T1 t0 ++ symsRange g p T2 (t0 + T1) := by
  intro T1
  induction T1 with
  | zero => intro T2 t0; simp [symsRange]
  | succ T1 ih =>
    intro T2 t0
    rw [show T1 + 1 + T2 = (T1 + T2) + 1 from by omega]
    show trackSyms g (ctlSeq p t0) ++ symsRange g p (T1 + T2) (t0 + 1) =
      (trackSyms g (ctlSeq p t0) ++ symsRange g p T1 (t0 + 1)) ++
        symsRange g p T2 (t0 + (T1 + 1))
    rw [ih T2 (t0 + 1), List.append_assoc,
      show t0 + 1 + T1 = t0 + (T1 + 1) from by omega]

/-- Lengths of the per-sample loop's output. -/
theorem symList_length (g : G) (ri : ℚ) (itr : ℤ) (zs : ℕ) :
    ∀ (cnt i zf : ℕ), (symList g ri itr zs i cnt zf).length = cnt := by
  intro cnt
  induction cnt with
  | zero => intro i zf; rfl
  | succ cnt ih =>
    intro i zf
    show (_ :: symList g ri itr zs (i + 1) cnt (zfNext zf)).length = _
    rw [List.length_cons, ih (i + 1) (zfNext zf)]

/-- A track's symbol count is `int(tr)` (clamped at 0). -/
theorem trackSyms_length (g : G) (ctl : Ctl) :
    (trackSyms g ctl).length = (truncInt ctl.tr).toNat := by
  unfold trackSyms
  exact symList_length g _ _ _ _ 0 _

/-- The reference parallel stream and the sequential stream have
identical per-track lengths (only the dither phase differs). -/
theorem parSyms_length_eq (g g2 : G) (p : Params) : ∀ T t0 : ℕ,
    (parSyms g p T t0).length = (symsRange g2 p T t0).length := by
  intro T
  induction T with
  | zero => intro t0; rfl
  | succ T ih =>
    intro t0
    show (processTrack g (jobOf (genSeq p t0)) ++ parSyms g p T (t0 + 1)).length = _
    show _ = (trackSyms g2 (ctlSeq p t0) ++ symsRange g2 p T (t0 + 1)).length
    rw [List.length_append, List.length_append, ih (t0 + 1)]
    obtain ⟨h1, _, _, _, _, _⟩ := genSeq_spec p t0
    unfold processTrack jobOf
    rw [show (ptLoop g (riOf (genSeq p t0).r) (truncInt (genSeq p t0).tr)
        (genSeq p t0).zs 0 (truncInt (genSeq p t0).tr).toNat
        (genSeq p t0).zf) = symList g (riOf (genSeq p t0).r)
        (truncInt (genSeq p t0).tr) (genSeq p t0).zs 0
        (truncInt (genSeq p t0).tr).toNat (genSeq p t0).zf
      from ptLoop_eq_symList ..]
    rw [symList_length, trackSyms_length, h1]

/-! ## Concrete-parameter facts -/

/-- `int(x)` on a whole-number `float64` value. -/
theorem truncInt_natCast (n : ℕ) : truncInt ((n : ℕ) : ℚ) = n := by
  unfold truncInt
  rw [if_pos (by positivity)]
  exact_mod_cast Int.floor_natCast n

/-- The CD budget as a rational. -/
theorem totalQ_cd (tr0 dtr r0 : ℚ) :
    totalQ ⟨tr0, dtr, r0, "cd"⟩ = 838860800 := by
  show (((if ("cd" : String) = "dvd" then DVDTotalSize else CDTotalSize) : ℕ) : ℚ) = _
  rw [if_neg (by decide)]
  norm_num [CDTotalSize]

/-- Element `k` of one track's sample loop output: the palette byte of
sample `i + k` quantized at phase `(zs, (zf + k) % 5)`. -/
theorem symList_getD (g : G) (ri : ℚ) (itr : ℤ) (zs : ℕ) :
    ∀ (cnt k i zf : ℕ), zf < 5 → k < cnt →
    (symList g ri itr zs i cnt zf).getD k 0 =
      sampleByte (g ri itr (i + k)) zs ((zf + k) % 5) := by
  intro cnt
  induction cnt with
  | zero => intro k i zf _ hk; omega
  | succ cnt ih =>
    intro k i zf h5 hk
    match k with
    | 0 =>
      show (sampleByte (g ri itr i) zs zf :: _).getD 0 0 = _
      rw [List.getD_cons_zero, Nat.add_zero, Nat.add_zero, Nat.mod_eq_of_lt h5]
    | k + 1 =>
      show (sampleByte (g ri itr i) zs zf :: _).getD (k + 1) 0 = _
      rw [List.getD_cons_succ,
        ih k (i + 1) (zfNext zf) (by unfold zfNext; split <;> omega) (by omega)]
      have h1 : i + 1 + k = i + (k + 1) := by omega
      have h2 : (zfNext zf + k) % 5 = (zf + (k + 1)) % 5 := by
        unfold zfNext
        split <;> omega
      rw [h1, h2]

/-- Closed form of the sequential control recurrence at
`tr0 = 1000, dtr = 0, r0 = 24.5, cd`. -/
theorem ctlSeq_p4 : ∀ t : ℕ,
    (ctlSeq ⟨1000, 0, 49 / 2, "cd"⟩ t).tr = 1000 ∧
    (ctlSeq ⟨1000, 0, 49 / 2, "cd"⟩ t).c = 1000 * (t : ℚ) ∧
    (ctlSeq ⟨1000, 0, 49 / 2, "cd"⟩ t).zs = t % 17 ∧
    (ctlSeq ⟨1000, 0, 49 / 2, "cd"⟩ t).zf = 0 := by
  intro t
  induction t with
  | zero => exact ⟨rfl, by norm_num [ctlSeq, ctlInit], rfl, rfl⟩
  | succ t ih =>
    obtain ⟨h1, h2, h3, h4⟩ := ih
    refine ⟨?_, ?_, ?_, ?_⟩
    · show (ctlSeq _ t).tr + (0 : ℚ) = 1000
      rw [h1]
      norm_num
    · show (ctlSeq _ t).c + (ctlSeq _ t).tr = _
      rw [h1, h2]
      push_cast
      ring
    · show (if (ctlSeq _ t).zs + 1 ≥ 17 then 0 else (ctlSeq _ t).zs + 1) = _
      rw [h3]
      split <;> omega
    · show ((ctlSeq _ t).zf + (truncInt (ctlSeq _ t).tr).toNat) % 5 = 0
      rw [h4, h1, show ((1000 : ℚ)) = ((1000 : ℕ) : ℚ) from by norm_num,
        truncInt_natCast]
      rfl

/-- Closed form of the sequential control recurrence at
`tr0 = 6, dtr = 5, r0 = 1, cd`. -/
theorem ctlSeq_pStar : ∀ t : ℕ,
    (ctlSeq ⟨6, 5, 1, "cd"⟩ t).tr = 6 + 5 * (t : ℚ) ∧
    (ctlSeq ⟨6, 5, 1, "cd"⟩ t).c = (5 * (t : ℚ) ^ 2 + 7 * t) / 2 ∧
    (ctlSeq ⟨6, 5, 1, "cd"⟩ t).zs = t % 17 ∧
    (ctlSeq ⟨6, 5, 1, "cd"⟩ t).zf = t % 5 := by
  intro t
  induction t with
  | zero => exact ⟨by norm_num [ctlSeq, ctlInit], by norm_num [ctlSeq, ctlInit],
      rfl, rfl⟩
  | succ t ih =>
    obtain ⟨h1, h2, h3, h4⟩ := ih
    have htr : truncInt (ctlSeq ⟨6, 5, 1, "cd"⟩ t).tr = ((6 + 5 * t : ℕ) : ℤ) := by
      rw [h1, show (6 : ℚ) + 5 * (t : ℚ) = ((6 + 5 * t : ℕ) : ℚ) from by push_cast; ring,
        truncInt_natCast]
    refine ⟨?_, ?_, ?_, ?_⟩
    · show (ctlSeq _ t).tr + (5 : ℚ) = _
      rw [h1]
      push_cast
      ring
    · show (ctlSeq _ t).c + (ctlSeq _ t).tr = _
      rw [h1, h2]
      push_cast
      ring
    · show (if (ctlSeq _ t).zs + 1 ≥ 17 then 0 else (ctlSeq _ t).zs + 1) = _
      rw [h3]
      split <;> omega
    · show ((ctlSeq _ t).zf + (truncInt (ctlSeq _ t).tr).toNat) % 5 = _
      rw [h4, htr, Int.toNat_natCast]
      omega

/-- The `tr0 = 1000, dtr = 0` run executes exactly
`⌊CDTotalSize / 1000⌋ = 838860` track iterations. -/
theorem terminates_p4 : TerminatesAt ⟨1000, 0, 49 / 2, "cd"⟩ (CDTotalSize / 1000) := by
  have hN : CDTotalSize / 1000 = 838860 := by norm_num [CDTotalSize]
  rw [hN]
  constructor
  · intro t ht
    obtain ⟨h1, h2, _, _⟩ := ctlSeq_p4 t
    unfold loopCond
    rw [h1, h2, totalQ_cd]
    have : (t : ℚ) ≤ 838859 := by exact_mod_cast Nat.lt_succ_iff.mp ht
    nlinarith
  · obtain ⟨h1, h2, _, _⟩ := ctlSeq_p4 838860
    unfold loopCond
    rw [h1, h2, totalQ_cd]
    norm_num

/-- The `tr0 = 6, dtr = 5` run executes exactly 18317 track
iterations. -/
theorem terminates_pStar : TerminatesAt ⟨6, 5, 1, "cd"⟩ 18317 := by
  constructor
  · intro t ht
    obtain ⟨h1, h2, _, _⟩ := ctlSeq_pStar t
    unfold loopCond
    rw [h1, h2, totalQ_cd]
    have hx : (t : ℚ) ≤ 18316 := by exact_mod_cast Nat.lt_succ_iff.mp ht
    have hx0 : (0 : ℚ) ≤ (t : ℚ) := by positivity
    nlinarith [mul_nonneg (sub_nonneg.mpr hx) hx0]
  · obtain ⟨h1, h2, _, _⟩ := ctlSeq_pStar 18317
    unfold loopCond
    rw [h1, h2, totalQ_cd]
    norm_num

/-- Twice the length of a block of sequential tracks at
`tr0 = 6, dtr = 5`: track `t` contributes `6 + 5t` symbols. -/
theorem symsRange_len_pStar (g : G) : ∀ T t0 : ℕ,
    2 * (symsRange g ⟨6, 5, 1, "cd"⟩ T t0).length + 5 * T =
      12 * T + 10 * T * t0 + 5 * T * T := by
  intro T
  induction T with
  | zero => intro t0; simp [symsRange]
  | succ T ih =>
    intro t0
    show 2 * (trackSyms g (ctlSeq ⟨6, 5, 1, "cd"⟩ t0) ++
      symsRange g ⟨6, 5, 1, "cd"⟩ T (t0 + 1)).length + 5 * (T + 1) = _
    rw [List.length_append, trackSyms_length]
    obtain ⟨h1, _, _, _⟩ := ctlSeq_pStar t0
    rw [h1, show (6 : ℚ) + 5 * (t0 : ℚ) = ((6 + 5 * t0 : ℕ) : ℚ) from by
      push_cast; ring, truncInt_natCast, Int.toNat_natCast]
    have hih := ih (t0 + 1)
    zify at hih ⊢
    linear_combination hih

/-- The full `tr0 = 6, dtr = 5` sequential symbol stream has
838845332 bytes. -/
theorem seqSyms_len_pStar (g : G) :
    (seqSyms g ⟨6, 5, 1, "cd"⟩ 18317).length = 838845332 := by
  have := symsRange_len_pStar g 18317 0
  unfold seqSyms
  omega

/-- Symbol 6 of the sequential stream (the first sample of track 1) at
`tr0 = 6, dtr = 5` on a flat gray-91 image is palette index 1
(`0x21`): track 1 starts with carried-over sample phase `zf = 1`, and
`91 % 85 = 6 > 5·1 + 1` fails. -/
theorem seqSyms_pStar_at6 :
    (seqSyms (gFlat 91) ⟨6, 5, 1, "cd"⟩ 18317).getD 6 0 = 0x21 := by
  unfold seqSyms
  rw [show (18317 : ℕ) = 2 + 18315 from rfl, symsRange_add]
  have hpre : (symsRange (gFlat 91) ⟨6, 5, 1, "cd"⟩ 2 0).length = 17 := by
    have := symsRange_len_pStar (gFlat 91) 2 0
    omega
  rw [List.getD_append _ _ _ _ (by omega)]
  show (trackSyms (gFlat 91) (ctlSeq ⟨6, 5, 1, "cd"⟩ 0) ++
    (trackSyms (gFlat 91) (ctlSeq ⟨6, 5, 1, "cd"⟩ 1) ++ [])).getD 6 0 = _
  have h0 : (trackSyms (gFlat 91) (ctlSeq ⟨6, 5, 1, "cd"⟩ 0)).length = 6 := by
    rw [trackSyms_length]
    obtain ⟨h1, _, _, _⟩ := ctlSeq_pStar 0
    rw [h1, show (6 : ℚ) + 5 * ((0 : ℕ) : ℚ) = ((6 : ℕ) : ℚ) from by
      push_cast; ring, truncInt_natCast, Int.toNat_natCast]
  rw [List.getD_append_right _ _ _ _ (by omega), h0]
  obtain ⟨h1, _, h3, h4⟩ := ctlSeq_pStar 1
  unfold trackSyms
  rw [h1, h3, h4, show (6 : ℚ) + 5 * ((1 : ℕ) : ℚ) = ((11 : ℕ) : ℚ) from by
    push_cast; ring, truncInt_natCast, Int.toNat_natCast]
  rw [List.getD_append _ _ _ _ (by rw [symList_length]; omega)]
  rw [symList_getD (gFlat 91) _ _ _ 11 0 0 (1 % 5) (by omega) (by omega)]
  rfl

/-- Symbol 6 of the reference parallel stream (the first sample of
job 1) at `tr0 = 6, dtr = 5` on the same image is palette index 2
(`0x28`): the job generator hands every worker `zf = 0`, and
`6 > 5·1 + 0` holds. -/
theorem parSyms_pStar_at6 :
    (parSyms (gFlat 91) ⟨6, 5, 1, "cd"⟩ 18317 0).getD 6 0 = 0x28 := by
  rw [show (18317 : ℕ) = 2 + 18315 from rfl]
  have hsplit : ∀ T1 T2 t0 : ℕ, parSyms (gFlat 91) ⟨6, 5, 1, "cd"⟩ (T1 + T2) t0 =
      parSyms (gFlat 91) ⟨6, 5, 1, "cd"⟩ T1 t0 ++
      parSyms (gFlat 91) ⟨6, 5, 1, "cd"⟩ T2 (t0 + T1) := by
    intro T1
    induction T1 with
    | zero => intro T2 t0; simp [parSyms]
    | succ T1 ih =>
      intro T2 t0
      rw [show T1 + 1 + T2 = (T1 + T2) + 1 from by omega]
      show processTrack _ (jobOf (genSeq _ t0)) ++ parSyms _ _ (T1 + T2) (t0 + 1) = _
      rw [ih T2 (t0 + 1), ← List.append_assoc,
        show t0 + 1 + T1 = t0 + (T1 + 1) from by omega]
      rfl
  rw [hsplit 2 18315 0]
  obtain ⟨g1, _, _, g4, g5, _⟩ := genSeq_spec ⟨6, 5, 1, "cd"⟩ 0
  obtain ⟨f1, _, _, f4, f5, _⟩ := genSeq_spec ⟨6, 5, 1, "cd"⟩ 1
  obtain ⟨c1, _, _, _⟩ := ctlSeq_pStar 0
  obtain ⟨d1, _, d3, _⟩ := ctlSeq_pStar 1
  have htr0 : truncInt (genSeq ⟨6, 5, 1, "cd"⟩ 0).tr = ((6 : ℕ) : ℤ) := by
    rw [g1, c1, show (6 : ℚ) + 5 * ((0 : ℕ) : ℚ) = ((6 : ℕ) : ℚ) from by
      push_cast; ring, truncInt_natCast]
  have htr1 : truncInt (genSeq ⟨6, 5, 1, "cd"⟩ 1).tr = ((11 : ℕ) : ℤ) := by
    rw [f1, d1, show (6 : ℚ) + 5 * ((1 : ℕ) : ℚ) = ((11 : ℕ) : ℚ) from by
      push_cast; ring, truncInt_natCast]
  have h0len : (processTrack (gFlat 91) (jobOf (genSeq ⟨6, 5, 1, "cd"⟩ 0))).length = 6 := by
    unfold processTrack jobOf
    rw [ptLoop_eq_symList, symList_length]
    simp only
    rw [htr0, Int.toNat_natCast]
  show ((processTrack _ (jobOf (genSeq _ 0)) ++
    (processTrack _ (jobOf (genSeq _ 1)) ++ [])) ++ _).getD 6 0 = _
  rw [List.getD_append _ _ _ _ (by
    simp only [List.length_append, h0len]
    unfold processTrack jobOf
    rw [ptLoop_eq_symList, symList_length]
    simp only
    rw [htr1, Int.toNat_natCast]
    norm_num)]
  rw [List.getD_append_right _ _ _ _ (by omega), h0len,
    show (6 - 6 : ℕ) = 0 from rfl]
  unfold processTrack jobOf
  simp only
  rw [ptLoop_eq_symList]
  rw [List.getD_append _ _ _ _ (by
    rw [symList_length, htr1, Int.toNat_natCast]; omega)]
  rw [htr1, f4, f5, d3, Int.toNat_natCast]
  rw [symList_getD (gFlat 91) _ _ _ 11 0 0 0 (by omega) (by omega)]
  rfl

/-! ## Reassembly-stage characterization -/

/-- `bufFind` misses exactly the absent keys. -/
theorem bufFind_eq_none (buf : List (ℕ × List ℕ)) (k : ℕ)
    (h : k ∉ buf.map Prod.fst) : bufFind buf k = none := by
  have hn : List.find? (fun e => e.1 == k) buf = none :=
    List.find?_eq_none.mpr (fun e he hbeq =>
      h (List.mem_map.mpr ⟨e, he, by simpa using hbeq⟩))
  unfold bufFind
  rw [hn]
  rfl

/-- `bufFind` finds some entry for every present key. -/
theorem bufFind_isSome (buf : List (ℕ × List ℕ)) (k : ℕ) (v : List ℕ)
    (hmem : (k, v) ∈ buf) : ∃ w, bufFind buf k = some w ∧ (k, w) ∈ buf := by
  have h : (List.find? (fun e => e.1 == k) buf).isSome :=
    List.find?_isSome.mpr ⟨(k, v), hmem, by simp⟩
  rcases Option.isSome_iff_exists.mp h with ⟨e, he⟩
  refine ⟨e.2, by unfold bufFind; rw [he]; rfl, ?_⟩
  have hk : e.1 = k := by simpa using List.find?_some he
  have hmem2 := List.mem_of_find?_eq_some he
  have he2 : (k, e.2) = e := by
    rw [← hk]
  rwa [he2]

/-- The drain loop (part_002 lines 118-129) writes the dense run
`next, …, m-1` of buffered tracks in increasing index order, stops at
the first missing index `m`, and evicts exactly what it wrote. -/
theorem drainLoop_spec (d : ℕ → List ℕ) : ∀ (fuel : ℕ) (st : ColSt) (m : ℕ),
    st.next ≤ m →
    (∀ j, st.next ≤ j → j < m → j ∈ st.buf.map Prod.fst) →
    m ∉ st.buf.map Prod.fst →
    (∀ e ∈ st.buf, e.2 = d e.1) →
    m - st.next ≤ fuel →
    drainLoop fuel st =
      ⟨dropKeys st.buf st.next (m - st.next), m,
        st.written ++ (List.range (m - st.next)).map
          (fun u => (st.next + u, d (st.next + u)))⟩ := by
  intro fuel
  induction fuel with
  | zero =>
    intro st m hle hrun hmiss hval hfuel
    have hm : m = st.next := by omega
    subst hm
    show st = _
    rw [Nat.sub_self]
    have hdrop : dropKeys st.buf st.next 0 = st.buf :=
      List.filter_eq_self.mpr (fun e _ => by
        simp only [Bool.not_eq_true']
        exact decide_eq_false (by omega))
    rw [hdrop]
    simp
  | succ fuel ih =>
    intro st m hle hrun hmiss hval hfuel
    by_cases hm : m = st.next
    · subst hm
      show (match bufFind st.buf st.next with
        | some d => drainLoop fuel ⟨bufErase st.buf st.next, st.next + 1,
            st.written ++ [(st.next, d)]⟩
        | none => st) = _
      rw [bufFind_eq_none st.buf st.next hmiss]
      rw [Nat.sub_self]
      have hdrop : dropKeys st.buf st.next 0 = st.buf :=
        List.filter_eq_self.mpr (fun e _ => by
          simp only [Bool.not_eq_true']
          exact decide_eq_false (by omega))
      rw [hdrop]
      simp
    · have hnext : st.next ∈ st.buf.map Prod.fst := hrun st.next (le_refl _) (by omega)
      rcases List.mem_map.mp hnext with ⟨e, he, hek⟩
      rcases bufFind_isSome st.buf st.next e.2 (by rwa [show (st.next, e.2) = e
        from by rw [← hek]]) with ⟨w, hfind, hwmem⟩
      show (match bufFind st.buf st.next with
        | some d => drainLoop fuel ⟨bufErase st.buf st.next, st.next + 1,
            st.written ++ [(st.next, d)]⟩
        | none => st) = _
      rw [hfind]
      show drainLoop fuel ⟨bufErase st.buf st.next, st.next + 1,
        st.written ++ [(st.next, w)]⟩ = _
      have hw : w = d st.next := by
        have := hval (st.next, w) hwmem
        simpa using this
      have herase_mem : ∀ k, k ∈ (bufErase st.buf st.next).map Prod.fst ↔
          (k ∈ st.buf.map Prod.fst ∧ k ≠ st.next) := by
        intro k
        unfold bufErase
        constructor
        · intro hk
          rcases List.mem_map.mp hk with ⟨e2, he2, hek2⟩
          have hmem2 := List.mem_of_mem_filter he2
          have hne : e2.1 ≠ st.next := by
            have := List.of_mem_filter he2
            simpa using this
          exact ⟨List.mem_map.mpr ⟨e2, hmem2, hek2⟩, by omega⟩
        · intro ⟨hk, hne⟩
          rcases List.mem_map.mp hk with ⟨e2, he2, hek2⟩
          exact List.mem_map.mpr ⟨e2, List.mem_filter.mpr ⟨he2, by
            simp only [bne_iff_ne, ne_eq, decide_eq_true_eq]
            omega⟩, hek2⟩
      rw [ih ⟨bufErase st.buf st.next, st.next + 1, st.written ++ [(st.next, w)]⟩ m
        (by show st.next + 1 ≤ m; omega)
        (by
          intro j hj hjm
          have hj2 : st.next + 1 ≤ j := hj
          show j ∈ (bufErase st.buf st.next).map Prod.fst
          exact (herase_mem j).mpr ⟨hrun j (by omega) hjm, by omega⟩)
        (by
          show m ∉ (bufErase st.buf st.next).map Prod.fst
          intro hc
          exact hmiss ((herase_mem m).mp hc).1)
        (by
          intro e2 he2
          exact hval e2 (List.mem_of_mem_filter he2))
        (by show m - (st.next + 1) ≤ fuel; omega)]
      have hbufeq : dropKeys (bufErase st.buf st.next) (st.next + 1)
          (m - (st.next + 1)) = dropKeys st.buf st.next (m - st.next) := by
        unfold dropKeys bufErase
        rw [List.filter_filter]
        apply List.filter_congr
        intro e2 _
        rw [Bool.eq_iff_iff]
        simp only [Bool.and_eq_true, Bool.not_eq_true', bne_iff_ne, ne_eq,
          decide_eq_false_iff_not, decide_eq_true_eq]
        omega
      have hwr : (st.written ++ [(st.next, w)]) ++
          (List.range (m - (st.next + 1))).map
            (fun u => (st.next + 1 + u, d (st.next + 1 + u))) =
          st.written ++ (List.range (m - st.next)).map
            (fun u => (st.next + u, d (st.next + u))) := by
        rw [List.append_assoc]
        congr 1
        rw [show m - st.next = (m - (st.next + 1)) + 1 from by omega,
          List.range_succ_eq_map, List.map_cons, List.map_map, hw,
          List.singleton_append]
        have htail : (List.range (m - (st.next + 1))).map
            (fun u => (st.next + 1 + u, d (st.next + 1 + u))) =
            (List.range (m - (st.next + 1))).map
              ((fun u => (st.next + u, d (st.next + u))) ∘ Nat.succ) := by
          apply List.map_congr_left
          intro u _
          show (st.next + 1 + u, d (st.next + 1 + u)) =
            (st.next + (u + 1), d (st.next + (u + 1)))
          rw [show st.next + (u + 1) = st.next + 1 + u from by omega]
        rw [htail]
        norm_num
      rw [hbufeq, hwr]

/-- Key membership after a block eviction. -/
theorem dropKeys_mem (buf : List (ℕ × List ℕ)) (a n : ℕ) (k : ℕ) :
    k ∈ (dropKeys buf a n).map Prod.fst ↔
      (k ∈ buf.map Prod.fst ∧ ¬(a ≤ k ∧ k < a + n)) := by
  unfold dropKeys
  constructor
  · intro hk
    rcases List.mem_map.mp hk with ⟨e, he, hek⟩
    have hmem := List.mem_of_mem_filter he
    have hcond := List.of_mem_filter he
    simp only [Bool.not_eq_true', decide_eq_false_iff_not] at hcond
    exact ⟨List.mem_map.mpr ⟨e, hmem, hek⟩, by rw [← hek]; exact hcond⟩
  · intro ⟨hk, hcond⟩
    rcases List.mem_map.mp hk with ⟨e, he, hek⟩
    refine List.mem_map.mpr ⟨e, List.mem_filter.mpr ⟨he, ?_⟩, hek⟩
    simp only [Bool.not_eq_true', decide_eq_false_iff_not]
    rw [hek]
    exact hcond

/-- Keys of `dropKeys` are a sub-multiset of the original keys. -/
theorem dropKeys_nodup (buf : List (ℕ × List ℕ)) (a n : ℕ)
    (h : (buf.map Prod.fst).Nodup) : ((dropKeys buf a n).map Prod.fst).Nodup :=
  List.Nodup.sublist (List.Sublist.map Prod.fst (List.filter_sublist buf)) h

/-- Key membership after a single-key erasure. -/
theorem bufErase_mem (buf : List (ℕ × List ℕ)) (kk : ℕ) (k : ℕ) :
    k ∈ (bufErase buf kk).map Prod.fst ↔
      (k ∈ buf.map Prod.fst ∧ k ≠ kk) := by
  unfold bufErase
  constructor
  · intro hk
    rcases List.mem_map.mp hk with ⟨e, he, hek⟩
    have hmem := List.mem_of_mem_filter he
    have hcond := List.of_mem_filter he
    simp only [bne_iff_ne, ne_eq] at hcond
    exact ⟨List.mem_map.mpr ⟨e, hmem, hek⟩, by rw [← hek]; exact hcond⟩
  · intro ⟨hk, hne⟩
    rcases List.mem_map.mp hk with ⟨e, he, hek⟩
    refine List.mem_map.mpr ⟨e, List.mem_filter.mpr ⟨he, ?_⟩, hek⟩
    simp only [bne_iff_ne, ne_eq]
    rw [hek]
    exact hne

/-- Mapping over `range b` splits at `a ≤ b`. -/
theorem range_map_split {α : Type} (f : ℕ → α) (a b : ℕ) (hab : a ≤ b) :
    (List.range b).map f =
      (List.range a).map f ++ (List.range (b - a)).map (fun u => f (a + u)) := by
  conv_lhs => rw [show b = a + (b - a) from by omega]
  rw [List.range_add, List.map_append, List.map_map]
  rfl

/-- Processing one error-free result with a fresh index preserves the
collector invariant, for the enlarged received set. -/
theorem collectStep_inv (d : ℕ → List ℕ) (S : Finset ℕ) (st : ColSt) (k : ℕ)
    (hinv : ColInv d S st) (hk : k ∉ S) :
    ColInv d (insert k S) (collectStep st ⟨k, d k, false⟩) := by
  obtain ⟨hdense, hnext, hwr, hkeys, hnd, hval⟩ := hinv
  have hkge : st.next ≤ k := by
    by_contra hlt
    exact hk (hdense k (by omega))
  -- the state fed to the drain loop
  have hb1keys : ∀ k2, k2 ∈ (bufInsert st.buf k (d k)).map Prod.fst ↔
      (k2 = k ∨ (k2 ∈ S ∧ st.next ≤ k2)) := by
    intro k2
    unfold bufInsert
    rw [List.map_cons, List.mem_cons, bufErase_mem, hkeys]
    constructor
    · rintro (h | ⟨⟨h1, h2⟩, _⟩)
      · exact Or.inl h
      · exact Or.inr ⟨h1, h2⟩
    · rintro (h | ⟨h1, h2⟩)
      · exact Or.inl h
      · by_cases hkk : k2 = k
        · exact Or.inl hkk
        · exact Or.inr ⟨⟨h1, h2⟩, hkk⟩
  have hb1nd : ((bufInsert st.buf k (d k)).map Prod.fst).Nodup := by
    unfold bufInsert
    rw [List.map_cons, List.nodup_cons]
    refine ⟨fun hc => ?_, ?_⟩
    · exact ((bufErase_mem st.buf k k).mp hc).2 rfl
    · exact List.Nodup.sublist (List.Sublist.map Prod.fst
        (List.filter_sublist st.buf)) hnd
  have hb1val : ∀ e ∈ bufInsert st.buf k (d k), e.2 = d e.1 := by
    intro e he
    rcases List.mem_cons.mp he with h | h
    · rw [h]
    · exact hval e (List.mem_of_mem_filter h)
  -- the first missing index at or above `next`
  have hexists : ∃ j, st.next + j ∉ (bufInsert st.buf k (d k)).map Prod.fst := by
    refine ⟨(insert k S).sup id + 1, fun hc => ?_⟩
    rcases (hb1keys _).mp hc with h | ⟨h, _⟩
    · have h2 : k ≤ (insert k S).sup id :=
        Finset.le_sup (f := id) (Finset.mem_insert_self k S)
      omega
    · have h2 : st.next + ((insert k S).sup id + 1) ≤ (insert k S).sup id :=
        Finset.le_sup (f := id) (Finset.mem_insert_of_mem (b := k) h)
      omega
  set m := st.next + Nat.find hexists with hm
  have hmge : st.next ≤ m := by
    rw [hm]
    exact Nat.le_add_right _ _
  have hmnot : m ∉ (bufInsert st.buf k (d k)).map Prod.fst := Nat.find_spec hexists
  have hmrun : ∀ j, st.next ≤ j → j < m →
      j ∈ (bufInsert st.buf k (d k)).map Prod.fst := by
    intro j hj hjm
    have := Nat.find_min hexists (m := j - st.next) (by omega)
    simp only [Decidable.not_not] at this
    rwa [show st.next + (j - st.next) = j from by omega] at this
  have hfuel : m - st.next ≤ (bufInsert st.buf k (d k)).length := by
    have hsub : (List.range' st.next (m - st.next)).toFinset ⊆
        ((bufInsert st.buf k (d k)).map Prod.fst).toFinset := by
      intro j hj
      rw [List.mem_toFinset, List.mem_range'] at hj
      rw [List.mem_toFinset]
      exact hmrun j (by omega) (by omega)
    have hcard := Finset.card_le_card hsub
    rw [List.toFinset_card_of_nodup (List.nodup_range' _ _),
      List.toFinset_card_of_nodup hb1nd, List.length_range',
      List.length_map] at hcard
    exact hcard
  have hstep : collectStep st ⟨k, d k, false⟩ =
      ⟨dropKeys (bufInsert st.buf k (d k)) st.next (m - st.next), m,
        st.written ++ (List.range (m - st.next)).map
          (fun u => (st.next + u, d (st.next + u)))⟩ := by
    show drainLoop (bufInsert st.buf k (d k)).length
      ⟨bufInsert st.buf k (d k), st.next, st.written⟩ = _
    exact drainLoop_spec d _ ⟨bufInsert st.buf k (d k), st.next, st.written⟩ m
      hmge hmrun hmnot hb1val hfuel
  rw [hstep]
  refine ⟨?_, ?_, ?_, ?_, ?_, ?_⟩
  · intro j hj
    show j ∈ insert k S
    by_cases hjn : j < st.next
    · exact Finset.mem_insert_of_mem (hdense j hjn)
    · rcases (hb1keys j).mp (hmrun j (by omega) hj) with h | ⟨h, _⟩
      · rw [h]; exact Finset.mem_insert_self k S
      · exact Finset.mem_insert_of_mem h
  · show m ∉ insert k S
    intro hc
    rcases Finset.mem_insert.mp hc with h | h
    · exact hmnot ((hb1keys m).mpr (Or.inl h))
    · exact hmnot ((hb1keys m).mpr (Or.inr ⟨h, hmge⟩))
  · show st.written ++ _ = _
    rw [hwr, range_map_split (fun i => (i, d i)) st.next m hmge]
  · intro k2
    show k2 ∈ (dropKeys _ _ _).map Prod.fst ↔ (k2 ∈ insert k S ∧ m ≤ k2)
    rw [dropKeys_mem, hb1keys]
    constructor
    · rintro ⟨h | ⟨h1, h2⟩, hno⟩
      · exact ⟨by rw [h]; exact Finset.mem_insert_self k S, by omega⟩
      · exact ⟨Finset.mem_insert_of_mem h1, by omega⟩
    · rintro ⟨h, hge⟩
      rcases Finset.mem_insert.mp h with h | h
      · exact ⟨Or.inl h, by omega⟩
      · exact ⟨Or.inr ⟨h, by omega⟩, by omega⟩
  · exact dropKeys_nodup _ _ _ hb1nd
  · intro e he
    have he2 : e ∈ dropKeys (bufInsert st.buf k (d k)) st.next (m - st.next) := he
    unfold dropKeys at he2
    exact hb1val e (List.mem_of_mem_filter he2)

/-- Processing a result that carries an error leaves the collector
state unchanged (the `continue` of part_002 lines 109-112). -/
theorem collectStep_err (st : ColSt) (r : TrackResult) (h : r.err = true) :
    collectStep st r = st := by
  unfold collectStep
  rw [h]
  rfl

/-- Folding the collector over a batch of fresh, error-free results
preserves the invariant for the enlarged received set. -/
theorem collect_inv (d : ℕ → List ℕ) : ∀ (rs : List TrackResult)
    (S : Finset ℕ) (st : ColSt),
    ColInv d S st →
    (∀ r ∈ rs, r.err = false ∧ r.data = d r.trackIndex) →
    (rs.map TrackResult.trackIndex).Nodup →
    (∀ r ∈ rs, r.trackIndex ∉ S) →
    ColInv d (S ∪ (rs.map TrackResult.trackIndex).toFinset)
      (rs.foldl collectStep st) := by
  intro rs
  induction rs with
  | nil =>
    intro S st hinv _ _ _
    simpa using hinv
  | cons r rs ih =>
    intro S st hinv hprop hnd hfresh
    obtain ⟨hre, hrd⟩ := hprop r (List.mem_cons_self r rs)
    have hr : r = ⟨r.trackIndex, d r.trackIndex, false⟩ := by
      cases r
      simp_all
    have hstep : collectStep st r =
        collectStep st ⟨r.trackIndex, d r.trackIndex, false⟩ := by
      rw [← hr]
    have hinv2 := collectStep_inv d S st r.trackIndex hinv
      (hfresh r (List.mem_cons_self r rs))
    rw [List.map_cons, List.nodup_cons] at hnd
    have hrec := ih (insert r.trackIndex S) (collectStep st r)
      (by rw [hstep]; exact hinv2)
      (fun r2 h2 => hprop r2 (List.mem_cons_of_mem r h2))
      hnd.2
      (fun r2 h2 hc => by
        rcases Finset.mem_insert.mp hc with h | h
        · exact hnd.1 (h ▸ List.mem_map.mpr ⟨r2, h2, rfl⟩)
        · exact hfresh r2 (List.mem_cons_of_mem r h2) h)
    show ColInv d _ (List.foldl collectStep (collectStep st r) rs)
    have hset : insert r.trackIndex S ∪
        (rs.map TrackResult.trackIndex).toFinset =
        S ∪ ((r :: rs).map TrackResult.trackIndex).toFinset := by
      ext x
      simp only [Finset.mem_union, Finset.mem_insert, List.map_cons,
        List.toFinset_cons, List.mem_toFinset]
      tauto
    rw [← hset]
    exact hrec

/-- Every symbol of a constant-gray (remainder-0) stream is the same
palette byte. -/
theorem symList_const (g : G) (v : ℕ) (hg : ∀ ri itr i, g ri itr i = v)
    (hm : v % 85 = 0) (ri : ℚ) (itr : ℤ) (zs : ℕ) :
    ∀ (cnt i zf : ℕ) (b : ℕ), b ∈ symList g ri itr zs i cnt zf →
      b = paletteAt (v / 85) := by
  intro cnt
  induction cnt with
  | zero => intro i zf b hb; simp [symList] at hb
  | succ cnt ih =>
    intro i zf b hb
    rcases List.mem_cons.mp hb with h | h
    · rw [h, hg ri itr i]
      unfold sampleByte quantIndex
      rw [hm]
      rw [if_neg (by omega)]
    · exact ih (i + 1) (zfNext zf) b h

/-- Every symbol of a constant-gray sequential run is the same palette
byte. -/
theorem symsRange_const (g : G) (v : ℕ) (hg : ∀ ri itr i, g ri itr i = v)
    (hm : v % 85 = 0) (p : Params) : ∀ (T t0 : ℕ) (b : ℕ),
    b ∈ symsRange g p T t0 → b = paletteAt (v / 85) := by
  intro T
  induction T with
  | zero => intro t0 b hb; simp [symsRange] at hb
  | succ T ih =>
    intro t0 b hb
    rcases List.mem_append.mp hb with h | h
    · exact symList_const g v hg hm _ _ _ _ 0 _ b h
    · exact ih (t0 + 1) b h

/-- Length of the progress report list. -/
theorem progRange_length (p : Params) : ∀ T t0 : ℕ,
    (progRange p T t0).length = T := by
  intro T
  induction T with
  | zero => intro t0; rfl
  | succ T ih =>
    intro t0
    show (_ :: progRange p T (t0 + 1)).length = T + 1
    rw [List.length_cons, ih (t0 + 1)]

/-- Entry `t` of the progress report list. -/
theorem progRange_getD (p : Params) : ∀ T t t0 : ℕ, t < T →
    (progRange p T t0).getD t 0 =
      truncInt (100 * (ctlSeq p (t0 + t)).c / totalQ p) := by
  intro T
  induction T with
  | zero => intro t t0 ht; omega
  | succ T ih =>
    intro t t0 ht
    match t with
    | 0 =>
      show (_ :: progRange p T (t0 + 1)).getD 0 0 = _
      rw [List.getD_cons_zero, Nat.add_zero]
    | t + 1 =>
      show (_ :: progRange p T (t0 + 1)).getD (t + 1) 0 = _
      rw [List.getD_cons_succ, ih t (t0 + 1) (by omega),
        show t0 + 1 + t = t0 + (t + 1) from by omega]

/-- With `tr0 > 0` and `dtr ≥ 0`, the track-sample count stays positive
and the accumulated sample count is non-negative and non-decreasing. -/
theorem ctlSeq_pos (p : Params) (h1 : 0 < p.tr0) (h2 : 0 ≤ p.dtr) :
    ∀ t : ℕ, 0 < (ctlSeq p t).tr ∧ 0 ≤ (ctlSeq p t).c ∧
      (ctlSeq p t).c ≤ (ctlSeq p (t + 1)).c := by
  intro t
  induction t with
  | zero =>
    refine ⟨h1, le_refl 0, ?_⟩
    show (0 : ℚ) ≤ (ctlSeq p 0).c + (ctlSeq p 0).tr
    show (0 : ℚ) ≤ 0 + p.tr0
    linarith
  | succ t ih =>
    obtain ⟨ia, ib, ic⟩ := ih
    have htr : 0 < (ctlSeq p (t + 1)).tr := by
      show 0 < (ctlSeq p t).tr + p.dtr
      linarith
    have hc : 0 ≤ (ctlSeq p (t + 1)).c := by
      show 0 ≤ (ctlSeq p t).c + (ctlSeq p t).tr
      linarith
    refine ⟨htr, hc, ?_⟩
    show (ctlSeq p (t + 1)).c ≤ (ctlSeq p (t + 1)).c + (ctlSeq p (t + 1)).tr
    linarith

/-- The accumulated sample count is monotone in the iteration index. -/
theorem ctlSeq_c_mono (p : Params) (h1 : 0 < p.tr0) (h2 : 0 ≤ p.dtr)
    (a b : ℕ) (hab : a ≤ b) : (ctlSeq p a).c ≤ (ctlSeq p b).c := by
  induction b with
  | zero =>
    rw [Nat.le_zero.mp hab]
  | succ b ih =>
    by_cases h : a = b + 1
    · rw [h]
    · exact le_trans (ih (by omega)) (ctlSeq_pos p h1 h2 b).2.2

/-- The symbol budget is positive. -/
theorem totalQ_pos (p : Params) : 0 < totalQ p := by
  unfold totalQ totalSize
  split
  · norm_num [DVDTotalSize]
  · norm_num [CDTotalSize]

/-! ## Claim theorems -/

/-- Claim C5: for every gray value in `[0,255]` and every phase pair,
quantization computes `low = gray div 85` (which lies in `[0,3]`),
`high = min (low+1) 3`, `remainder = gray mod 85`, and in ordered mode
emits the palette byte of `high` iff `remainder > zs*5 + zf` or
`remainder = 84`, otherwise the palette byte of `low`; the chosen
palette index is always in `[0,3]`. -/
theorem C5_quantization (gray zs zf : ℕ) (h : gray ≤ 255) :
    quantIndex gray zs zf =
      (if gray % 85 > zs * 5 + zf ∨ gray % 85 = 84
        then min (gray / 85 + 1) 3 else gray / 85) ∧
    gray / 85 ≤ 3 ∧
    quantIndex gray zs zf ≤ 3 ∧
    sampleByte gray zs zf =
      (if gray % 85 > zs * 5 + zf ∨ gray % 85 = 84
        then paletteAt (min (gray / 85 + 1) 3) else paletteAt (gray / 85)) := by
  have hdiv : gray / 85 ≤ 3 := by omega
  have hc2 : (if gray / 85 + 1 > 3 then 3 else gray / 85 + 1) =
      min (gray / 85 + 1) 3 := by
    split <;> omega
  unfold sampleByte quantIndex
  dsimp only
  rw [hc2]
  refine ⟨rfl, hdiv, ?_, ?_⟩
  · split
    · omega
    · exact hdiv
  · split <;> rfl

/-- Witness for C5 at `gray = 200`, `zs = 3`, `zf = 2`. -/
theorem C5_witness :
    (200 : ℕ) ≤ 255 ∧
    (quantIndex 200 3 2 =
      (if 200 % 85 > 3 * 5 + 2 ∨ 200 % 85 = 84
        then min (200 / 85 + 1) 3 else 200 / 85) ∧
    200 / 85 ≤ 3 ∧
    quantIndex 200 3 2 ≤ 3 ∧
    sampleByte 200 3 2 =
      (if 200 % 85 > 3 * 5 + 2 ∨ 200 % 85 = 84
        then paletteAt (min (200 / 85 + 1) 3) else paletteAt (200 / 85))) :=
  ⟨by decide, C5_quantization 200 3 2 (by decide)⟩

/-- Claim C7: along every reachable interleaver state the write cursor
is in `[0,23]` and the frame counter in `[0,111]`, and every index
`n2m` computes — for writes through `delays[pinf]` and for the 24 reads
after a frame advance — lies in `[0,2688)` and equals the mod-2688
reduction the spec requires, so no buffer access is out of bounds. -/
theorem C7_interleaver_bounds :
    (∀ xs : List ℕ,
      (adRun adInit xs).1.pinf < 24 ∧ (adRun adInit xs).1.nh < 112) ∧
    (∀ nh j : ℕ, nh < 112 → j < 24 →
      0 ≤ n2m nh (delay j) ∧ n2m nh (delay j) < 2688 ∧
      n2m nh (delay j) = ((nh : ℤ) * 24 + delay j) % 2688) ∧
    (∀ nh n : ℕ, nh < 112 → n < 24 →
      0 ≤ n2m nh (n : ℤ) ∧ n2m nh (n : ℤ) < 2688 ∧
      n2m nh (n : ℤ) = ((nh : ℤ) * 24 + n) % 2688) :=
  ⟨fun xs => adRun_inv adInit xs adInit_inv, n2m_write_spec, n2m_read_spec⟩

/-- Witness for C7 on the stream `[7, 8, 9]` and indices
`nh = 111`, `j = 5`, `n = 7`. -/
theorem C7_witness :
    ((adRun adInit [7, 8, 9]).1.pinf < 24 ∧
      (adRun adInit [7, 8, 9]).1.nh < 112) ∧
    (0 ≤ n2m 111 (delay 5) ∧ n2m 111 (delay 5) < 2688 ∧
      n2m 111 (delay 5) = ((111 : ℤ) * 24 + delay 5) % 2688) ∧
    (0 ≤ n2m 111 ((7 : ℕ) : ℤ) ∧ n2m 111 ((7 : ℕ) : ℤ) < 2688 ∧
      n2m 111 ((7 : ℕ) : ℤ) = ((111 : ℤ) * 24 + (7 : ℕ)) % 2688) :=
  ⟨C7_interleaver_bounds.1 [7, 8, 9],
    C7_interleaver_bounds.2.1 111 5 (by decide) (by decide),
    C7_interleaver_bounds.2.2 111 7 (by decide) (by decide)⟩

/-- Claim C6: the interleaver is a deterministic, value-independent,
injective rearrangement of input positions: input byte `k` appears at
output position `outPos k` (a pure function of `k` and the delay table)
for every input stream, whenever that position is inside the emitted
output, so reading the output through the inverse of `outPos` recovers
the input order exactly. -/
theorem C6_interleaver_roundtrip :
    Function.Injective outPos ∧
    ∀ (xs : List ℕ) (k : ℕ), k < xs.length →
      outPos k < (interleave xs).length →
      (interleave xs).getD (outPos k) 0 = xs.getD k 0 :=
  ⟨outPos_injective, interleave_outPos⟩

/-- Witness for C6 on a stream of 96 distinct markers at `k = 23`. -/
theorem C6_witness :
    23 < (marks 96).length ∧
    outPos 23 < (interleave (marks 96)).length ∧
    (interleave (marks 96)).getD (outPos 23) 0 = (marks 96).getD 23 0 :=
  ⟨by decide, by decide,
    C6_interleaver_roundtrip.2 (marks 96) 23 (by decide) (by decide)⟩

/-- Claim C2 (code bug evidence): in the worker-failure scenario of
spec §8 — a 10-track parallel run whose track-5 worker reports an
error — the reference collector silently drops the error
(`ConvertParallel` returns no error) and writes exactly tracks 0-4; no
bytes are written for indices at or after the failed index, but the
required abort-and-propagate behavior does not happen. -/
theorem C2_error_dropped :
    (convertParallelRun errScenario).2 = none ∧
    (∃ r ∈ errScenario, r.err = true) ∧
    (collect errScenario).written =
      (List.range 5).map (fun i => (i, [i + 1])) ∧
    writtenIndices (collect errScenario) = [0, 1, 2, 3, 4] :=
  ⟨rfl,
    ⟨⟨5, [6], true⟩, List.mem_map.mpr ⟨5, List.mem_range.mpr (by decide), rfl⟩,
      rfl⟩,
    by decide, by decide⟩

/-- Claim C3: for every track count, every data assignment and every
arrival order (any permutation of the error-free per-track results),
the reassembly stage writes the tracks in strictly increasing dense
index order starting at 0 — each track's bytes only after all
lower-indexed tracks' bytes — producing exactly the in-order
concatenation. -/
theorem C3_ordered_reassembly (n : ℕ) (d : ℕ → List ℕ)
    (results : List TrackResult) (hperm : results.Perm (okResults d n)) :
    (collect results).written = (List.range n).map (fun i => (i, d i)) ∧
    writtenIndices (collect results) = List.range n ∧
    reassembledBytes (collect results) = (List.range n).flatMap d := by
  have hform : ∀ r ∈ results, ∃ i, i < n ∧ r = ⟨i, d i, false⟩ := by
    intro r hr
    have hr2 := (hperm.mem_iff).mp hr
    unfold okResults at hr2
    rcases List.mem_map.mp hr2 with ⟨i, hi, he⟩
    exact ⟨i, List.mem_range.mp hi, he.symm⟩
  have hprop : ∀ r ∈ results, r.err = false ∧ r.data = d r.trackIndex := by
    intro r hr
    rcases hform r hr with ⟨i, _, he⟩
    rw [he]
    exact ⟨rfl, rfl⟩
  have hmap : (okResults d n).map TrackResult.trackIndex = List.range n := by
    unfold okResults
    rw [List.map_map]
    exact List.map_id _
  have hpermidx : (results.map TrackResult.trackIndex).Perm (List.range n) := by
    rw [← hmap]
    exact hperm.map _
  have hnd : (results.map TrackResult.trackIndex).Nodup :=
    (List.Perm.nodup_iff hpermidx).mpr (List.nodup_range n)
  have hinv0 : ColInv d ∅ ⟨[], 0, []⟩ := by
    refine ⟨fun m hm => absurd (show m < 0 from hm) (by omega), by simp, rfl,
      fun k => by simp, List.nodup_nil, fun e he => by simp at he⟩
  have hfin := collect_inv d results ∅ ⟨[], 0, []⟩ hinv0 hprop hnd
    (fun r _ hc => by simp at hc)
  have hsetf : (∅ ∪ (results.map TrackResult.trackIndex).toFinset) =
      (List.range n).toFinset := by
    rw [Finset.empty_union]
    exact List.toFinset_eq_of_perm _ _ hpermidx
  rw [hsetf] at hfin
  obtain ⟨hdense, hnext, hwr, _, _, _⟩ := hfin
  have hn : (results.foldl collectStep ⟨[], 0, []⟩).next = n := by
    have hle : (results.foldl collectStep ⟨[], 0, []⟩).next ≤ n := by
      by_contra hgt
      have := hdense n (by omega)
      rw [List.mem_toFinset, List.mem_range] at this
      omega
    have hge : ¬ (results.foldl collectStep ⟨[], 0, []⟩).next < n := fun hc =>
      hnext (by rw [List.mem_toFinset, List.mem_range]; exact hc)
    omega
  have hwr2 : (collect results).written =
      (List.range n).map (fun i => (i, d i)) := by
    show (results.foldl collectStep ⟨[], 0, []⟩).written = _
    rw [hwr, hn]
  refine ⟨hwr2, ?_, ?_⟩
  · unfold writtenIndices
    rw [hwr2, List.map_map]
    exact List.map_id _
  · unfold reassembledBytes
    rw [hwr2]
    have haux : ∀ l : List ℕ,
        (l.map (fun i => (i, d i))).flatMap Prod.snd = l.flatMap d := by
      intro l
      induction l with
      | nil => rfl
      | cons a l ih =>
        rw [List.map_cons, List.flatMap_cons, List.flatMap_cons, ih]
    exact haux (List.range n)

/-- Witness for C3: three tracks arriving in the order 2, 0, 1. -/
theorem C3_witness :
    ([⟨2, [12], false⟩, ⟨0, [10], false⟩, ⟨1, [11], false⟩] :
        List TrackResult).Perm (okResults (fun i => [i + 10]) 3) ∧
    (collect [⟨2, [12], false⟩, ⟨0, [10], false⟩, ⟨1, [11], false⟩]).written =
      (List.range 3).map (fun i => (i, [i + 10])) :=
  ⟨by decide,
    (C3_ordered_reassembly 3 (fun i => [i + 10])
      [⟨2, [12], false⟩, ⟨0, [10], false⟩, ⟨1, [11], false⟩]
      (by decide)).1⟩

/-- Claim C8 (counterexample): a negative `tr0` — and likewise a
non-positive `r0` — passes `burnImage`'s parameter handling and is
handed to the converter, instead of being rejected with an
`InvalidParameter` error before work starts. -/
theorem C8_counterexample :
    burnValidate "cd" (-5) 1 1 "" = Except.ok (-5, 1, 1) ∧
    burnValidate "cd" 1 1 (-1) "" = Except.ok (1, 1, -1) ∧
    burnValidate "dvd" (-3) (-4) 0 "" = Except.ok (-3, -4, 0) :=
  ⟨rfl, rfl, rfl⟩

/-- Claim C8 (amended): before any conversion work, `burnImage` rejects
only an unknown disc type; `tr0 = 0` or `dtr = 0` silently substitutes
the default preset's parameters; all other numeric values — including
negative ones — are passed through to the converter unvalidated. -/
theorem C8_validation (discType : String) (tr0 dtr r0 : ℚ) :
    (strToLower discType ≠ "cd" → strToLower discType ≠ "dvd" →
      burnValidate discType tr0 dtr r0 "" = Except.error "invalid disc type") ∧
    (strToLower discType = "cd" ∨ strToLower discType = "dvd" →
      ((tr0 = 0 ∨ dtr = 0) →
        burnValidate discType tr0 dtr r0 "" =
          Except.ok ((getDefaultPreset (strToLower discType)).tr0,
            (getDefaultPreset (strToLower discType)).dtr,
            (getDefaultPreset (strToLower discType)).r0)) ∧
      (tr0 ≠ 0 → dtr ≠ 0 →
        burnValidate discType tr0 dtr r0 "" = Except.ok (tr0, dtr, r0))) := by
  constructor
  · intro h1 h2
    unfold burnValidate
    rw [if_pos ⟨h1, h2⟩]
    rfl
  · intro hcd
    constructor
    · intro h0
      unfold burnValidate
      rw [if_neg (by
        rcases hcd with h | h <;> rw [h] <;> simp)]
      rw [if_neg (by simp), if_pos h0]
      rfl
    · intro h1 h2
      unfold burnValidate
      rw [if_neg (by
        rcases hcd with h | h <;> rw [h] <;> simp)]
      rw [if_neg (by simp), if_neg (by
        rintro (h | h)
        · exact h1 h
        · exact h2 h)]
      rfl

/-- Witness for C8: an unknown type is rejected; `tr0 = 0` picks the
default preset; non-zero negatives pass through. -/
theorem C8_witness :
    (burnValidate "xyz" 1 1 1 "" = Except.error "invalid disc type") ∧
    (burnValidate "CD" 0 5 7 "" =
      Except.ok ((getDefaultPreset (strToLower "CD")).tr0,
        (getDefaultPreset (strToLower "CD")).dtr,
        (getDefaultPreset (strToLower "CD")).r0)) :=
  ⟨(C8_validation "xyz" 1 1 1).1 (by decide) (by decide),
    ((C8_validation "CD" 0 5 7).2 (Or.inl (by decide))).1 (Or.inl rfl)⟩

/-- Claim C9 (amended): within one sequential run the reported values
equal `⌊100 · c / totalBudget⌋` at each report and are monotonically
non-decreasing, and exactly one report is made per track iteration —
the encoder does not suppress repeats of the same value (deduplication
is left to the caller's callback). -/
theorem C9_progress (p : Params) (N : ℕ) (h1 : 0 < p.tr0) (h2 : 0 ≤ p.dtr) :
    (progList p N).length = N ∧
    (∀ t, t < N →
      (progList p N).getD t 0 = ⌊100 * (ctlSeq p t).c / totalQ p⌋) ∧
    (∀ t t', t ≤ t' → t' < N →
      (progList p N).getD t 0 ≤ (progList p N).getD t' 0) := by
  have hval : ∀ t, t < N →
      (progList p N).getD t 0 = ⌊100 * (ctlSeq p t).c / totalQ p⌋ := by
    intro t ht
    unfold progList
    rw [progRange_getD p N t 0 ht, Nat.zero_add]
    unfold truncInt
    rw [if_pos (div_nonneg (by
      have := (ctlSeq_pos p h1 h2 t).2.1
      linarith) (le_of_lt (totalQ_pos p)))]
  refine ⟨progRange_length p N 0, hval, ?_⟩
  intro t t' htt ht'
  rw [hval t (by omega), hval t' ht']
  apply Int.floor_le_floor
  apply div_le_div_of_nonneg_right ?_ (le_of_lt (totalQ_pos p))
  have := ctlSeq_c_mono p h1 h2 t t' htt
  linarith

/-- Witness for C9 at `tr0 = 1000, dtr = 1, r0 = 1`, two iterations. -/
theorem C9_witness :
    (0 : ℚ) < 1000 ∧ (0 : ℚ) ≤ 1 ∧
    ((progList ⟨1000, 1, 1, "cd"⟩ 2).length = 2 ∧
    (∀ t, t < 2 → (progList ⟨1000, 1, 1, "cd"⟩ 2).getD t 0 =
      ⌊100 * (ctlSeq ⟨1000, 1, 1, "cd"⟩ t).c / totalQ ⟨1000, 1, 1, "cd"⟩⌋) ∧
    (∀ t t', t ≤ t' → t' < 2 →
      (progList ⟨1000, 1, 1, "cd"⟩ 2).getD t 0 ≤
        (progList ⟨1000, 1, 1, "cd"⟩ 2).getD t' 0)) :=
  ⟨by norm_num, by norm_num,
    C9_progress ⟨1000, 1, 1, "cd"⟩ 2 (by norm_num) (by norm_num)⟩

/-- Claim C9 (counterexample): at `tr0 = 1000, dtr = 1` the first two
track iterations both report progress value 0 — the encoder invokes the
callback twice in a row with the same value, refuting "invoked only
when the value differs from the previously reported value". -/
theorem C9_counterexample : progList ⟨1000, 1, 1, "cd"⟩ 2 = [0, 0] := by
  show truncInt (100 * (ctlSeq ⟨1000, 1, 1, "cd"⟩ 0).c /
      totalQ ⟨1000, 1, 1, "cd"⟩) ::
    truncInt (100 * (ctlSeq ⟨1000, 1, 1, "cd"⟩ 1).c /
      totalQ ⟨1000, 1, 1, "cd"⟩) :: [] = [0, 0]
  have hc0 : (ctlSeq ⟨1000, 1, 1, "cd"⟩ 0).c = 0 := rfl
  have hc1 : (ctlSeq ⟨1000, 1, 1, "cd"⟩ 1).c = 1000 := by
    show (0 : ℚ) + 1000 = 1000
    norm_num
  rw [hc0, hc1, totalQ_cd]
  have h0 : truncInt (100 * (0 : ℚ) / 838860800) = 0 := by
    unfold truncInt
    rw [if_pos (by norm_num)]
    norm_num
  have h1 : truncInt (100 * (1000 : ℚ) / 838860800) = 0 := by
    unfold truncInt
    rw [if_pos (by norm_num)]
    rw [Int.floor_eq_zero_iff]
    constructor <;> norm_num
  rw [h0, h1]

/-- Claim C10: every `TrackJob` emitted by the reference parallel job
generator carries sample phase `zf = 0`, whereas the sequential encoder
carries `zf` over between tracks; consequently on a flat gray-91 image
with `tr0 = 6, dtr = 5` the two drivers choose different dither
branches for the same sample (stream position 6, the first sample of
track 1). -/
theorem C10_generator_phase :
    (∀ (p : Params) (N : ℕ), ∀ job ∈ parJobs p N, job.zf = 0) ∧
    (seqSyms (gFlat 91) ⟨6, 5, 1, "cd"⟩ 18317).getD 6 0 = 0x21 ∧
    (parSyms (gFlat 91) ⟨6, 5, 1, "cd"⟩ 18317 0).getD 6 0 = 0x28 ∧
    (seqSyms (gFlat 91) ⟨6, 5, 1, "cd"⟩ 18317).getD 6 0 ≠
      (parSyms (gFlat 91) ⟨6, 5, 1, "cd"⟩ 18317 0).getD 6 0 := by
  refine ⟨?_, seqSyms_pStar_at6, parSyms_pStar_at6, ?_⟩
  · intro p N job hjob
    rcases List.mem_map.mp hjob with ⟨t, _, he⟩
    rw [← he]
    show (genSeq p t).zf = 0
    exact (genSeq_spec p t).2.2.2.2.1
  · rw [seqSyms_pStar_at6, parSyms_pStar_at6]
    decide

/-- Witness for C10: the first job of a one-job generator run carries
`zf = 0`. -/
theorem C10_witness :
    jobOf (genSeq ⟨6, 5, 1, "cd"⟩ 0) ∈ parJobs ⟨6, 5, 1, "cd"⟩ 1 ∧
    (jobOf (genSeq ⟨6, 5, 1, "cd"⟩ 0)).zf = 0 :=
  ⟨List.mem_map.mpr ⟨0, List.mem_range.mpr (by decide), rfl⟩,
    C10_generator_phase.1 ⟨6, 5, 1, "cd"⟩ 1 _
      (List.mem_map.mpr ⟨0, List.mem_range.mpr (by decide), rfl⟩)⟩

/-- Claim C4 (amended): with `tr0 = 1000, dtr = 0, r0 = 24.5, cd`,
every track's sample count is 1000, the radius step is 0, the loop runs
exactly `⌊800·1024·1024 / 1000⌋` iterations, and — provided the flat
image's gray value is a multiple of 85 — every emitted symbol byte is
the same palette value `palette[gray div 85]`. -/
theorem C4_flat_run (g : G) (v : ℕ) (hg : ∀ ri itr i, g ri itr i = v)
    (hv : v ≤ 255) (hm : v % 85 = 0) :
    (∀ t : ℕ, truncInt (ctlSeq ⟨1000, 0, 49 / 2, "cd"⟩ t).tr = 1000) ∧
    drOf ⟨1000, 0, 49 / 2, "cd"⟩ = 0 ∧
    TerminatesAt ⟨1000, 0, 49 / 2, "cd"⟩ (CDTotalSize / 1000) ∧
    v / 85 ≤ 3 ∧
    (∀ b ∈ seqSyms g ⟨1000, 0, 49 / 2, "cd"⟩ (CDTotalSize / 1000),
      b = paletteAt (v / 85)) := by
  refine ⟨?_, ?_, terminates_p4, by omega, ?_⟩
  · intro t
    rw [(ctlSeq_p4 t).1,
      show (1000 : ℚ) = ((1000 : ℕ) : ℚ) from by norm_num, truncInt_natCast]
    norm_num
  · norm_num [drOf]
  · intro b hb
    exact symsRange_const g v hg hm _ _ _ b hb

/-- Witness for C4 on a flat gray-85 image. -/
theorem C4_witness :
    (∀ ri itr i, gFlat 85 ri itr i = 85) ∧ 85 ≤ 255 ∧ 85 % 85 = 0 ∧
    ((∀ t : ℕ, truncInt (ctlSeq ⟨1000, 0, 49 / 2, "cd"⟩ t).tr = 1000) ∧
    drOf ⟨1000, 0, 49 / 2, "cd"⟩ = 0 ∧
    TerminatesAt ⟨1000, 0, 49 / 2, "cd"⟩ (CDTotalSize / 1000) ∧
    85 / 85 ≤ 3 ∧
    (∀ b ∈ seqSyms (gFlat 85) ⟨1000, 0, 49 / 2, "cd"⟩ (CDTotalSize / 1000),
      b = paletteAt (85 / 85))) :=
  ⟨fun _ _ _ => rfl, by decide, by decide,
    C4_flat_run (gFlat 85) 85 (fun _ _ _ => rfl) (by decide) (by decide)⟩

/-- Claim C4 (counterexample): on a flat gray-2 image the run's first
track already emits two different palette bytes (samples 0 and 2), so
"every emitted symbol byte equals the same palette value" fails for a
general flat-gray image. -/
theorem C4_counterexample :
    (seqSyms (gFlat 2) ⟨1000, 0, 49 / 2, "cd"⟩ (CDTotalSize / 1000)).getD 0 0
        = 0x21 ∧
    (seqSyms (gFlat 2) ⟨1000, 0, 49 / 2, "cd"⟩ (CDTotalSize / 1000)).getD 2 0
        = 0x10 ∧
    (seqSyms (gFlat 2) ⟨1000, 0, 49 / 2, "cd"⟩ (CDTotalSize / 1000)).getD 0 0
        ≠ (seqSyms (gFlat 2) ⟨1000, 0, 49 / 2, "cd"⟩
            (CDTotalSize / 1000)).getD 2 0 := by
  have htr0 : truncInt (ctlSeq ⟨1000, 0, 49 / 2, "cd"⟩ 0).tr = 1000 := by
    rw [(ctlSeq_p4 0).1,
      show (1000 : ℚ) = ((1000 : ℕ) : ℚ) from by norm_num, truncInt_natCast]
    norm_num
  have hzs0 : (ctlSeq ⟨1000, 0, 49 / 2, "cd"⟩ 0).zs = 0 := (ctlSeq_p4 0).2.2.1
  have hzf0 : (ctlSeq ⟨1000, 0, 49 / 2, "cd"⟩ 0).zf = 0 := (ctlSeq_p4 0).2.2.2
  have hN : CDTotalSize / 1000 = 1 + 838859 := by norm_num [CDTotalSize]
  have hget : ∀ k, k < 1000 →
      (seqSyms (gFlat 2) ⟨1000, 0, 49 / 2, "cd"⟩ (CDTotalSize / 1000)).getD k 0 =
        sampleByte 2 0 (k % 5) := by
    intro k hk
    unfold seqSyms
    rw [hN, symsRange_add]
    have hlen : (symsRange (gFlat 2) ⟨1000, 0, 49 / 2, "cd"⟩ 1 0).length
        = 1000 := by
      show (trackSyms (gFlat 2) (ctlSeq ⟨1000, 0, 49 / 2, "cd"⟩ 0) ++ []).length = _
      rw [List.length_append, trackSyms_length, htr0]
      rfl
    rw [List.getD_append _ _ _ _ (by omega)]
    show (trackSyms (gFlat 2) (ctlSeq ⟨1000, 0, 49 / 2, "cd"⟩ 0) ++ []).getD k 0 = _
    rw [List.getD_append _ _ _ _ (by
      rw [trackSyms_length, htr0]
      show k < (1000 : ℤ).toNat
      omega)]
    unfold trackSyms
    rw [htr0, hzs0, hzf0]
    rw [symList_getD (gFlat 2) _ _ _ (1000 : ℤ).toNat k 0 0 (by omega) (by
      show k < (1000 : ℤ).toNat
      omega)]
    simp only [Nat.zero_add]
    rfl
  rw [hget 0 (by omega), hget 2 (by omega)]
  refine ⟨by decide, by decide, by decide⟩

/-- Claim C1 (amended): for every parameter set and fixed image, the
sequential `Convert` and the parallel pipeline corrected for *both*
divergences — interleaving added to the worker output in reassembly
order, and the job generator carrying the sample phase `zf` across
tracks exactly as the sequential sample loop does — produce
byte-identical output files (and identical progress reports). -/
theorem C1_corrected_equivalence (g : G) (p : Params) (N fuel : ℕ)
    (h1 : 0 < p.tr0) (h2 : 0 < p.dtr) (h3 : 0 < p.r0)
    (hterm : TerminatesAt p N) (hfuel : N < fuel) :
    convert g p fuel = some (parFixedBytes g p N, progList p N) := by
  rw [convert_spec g p N fuel hterm hfuel]
  unfold parFixedBytes seqSyms
  rw [parSymsFixed_eq_symsRange]

/-- Witness for C1 at `tr0 = 10⁹` (the guard fails immediately, so the
run is empty on both sides). -/
theorem C1_witness :
    (0 : ℚ) < 1000000000 ∧ (0 : ℚ) < 1 ∧ (0 : ℚ) < 1 ∧
    TerminatesAt ⟨1000000000, 1, 1, "cd"⟩ 0 ∧ 0 < 1 ∧
    convert (gFlat 0) ⟨1000000000, 1, 1, "cd"⟩ 1 =
      some (parFixedBytes (gFlat 0) ⟨1000000000, 1, 1, "cd"⟩ 0,
        progList ⟨1000000000, 1, 1, "cd"⟩ 0) := by
  have hterm : TerminatesAt ⟨1000000000, 1, 1, "cd"⟩ 0 := by
    constructor
    · intro t ht
      omega
    · unfold loopCond
      rw [totalQ_cd]
      show ¬ ((0 : ℚ) < 838860800 - 1000000000)
      norm_num
  exact ⟨by norm_num, by norm_num, by norm_num, hterm, by omega,
    C1_corrected_equivalence (gFlat 0) ⟨1000000000, 1, 1, "cd"⟩ 0 1
      (by norm_num) (by norm_num) (by norm_num) hterm (by omega)⟩

/-- Claim C1 (counterexample): at the valid parameters
`tr0 = 6, dtr = 5, r0 = 1` on a flat gray-91 image, the sequential
output differs from the parallel pipeline with interleaving added but
the generator's `zf = 0` behavior kept: the two streams disagree at
symbol 6, hence the interleaved files disagree at byte 2018. -/
theorem C1_counterexample :
    (0 : ℚ) < 6 ∧ (0 : ℚ) < 5 ∧ (0 : ℚ) < 1 ∧
    TerminatesAt ⟨6, 5, 1, "cd"⟩ 18317 ∧
    interleave (seqSyms (gFlat 91) ⟨6, 5, 1, "cd"⟩ 18317) ≠
      parCorrectedBytes (gFlat 91) ⟨6, 5, 1, "cd"⟩ 18317 := by
  refine ⟨by norm_num, by norm_num, by norm_num, terminates_pStar, ?_⟩
  intro heq
  have hpos : outPos 6 = 2018 := by decide
  have hlen1 := seqSyms_len_pStar (gFlat 91)
  have hlen2 : (parSyms (gFlat 91) ⟨6, 5, 1, "cd"⟩ 18317 0).length
      = 838845332 := by
    rw [parSyms_length_eq (gFlat 91) (gFlat 91) ⟨6, 5, 1, "cd"⟩ 18317 0]
    exact hlen1
  have e1 := interleave_outPos (seqSyms (gFlat 91) ⟨6, 5, 1, "cd"⟩ 18317) 6
    (by omega)
    (by rw [hpos, interleave_length, hlen1]; norm_num)
  have e2 := interleave_outPos (parSyms (gFlat 91) ⟨6, 5, 1, "cd"⟩ 18317 0) 6
    (by omega)
    (by rw [hpos, interleave_length, hlen2]; norm_num)
  rw [seqSyms_pStar_at6] at e1
  rw [parSyms_pStar_at6] at e2
  unfold parCorrectedBytes at heq
  rw [heq, e2] at e1
  exact absurd e1 (by decide)

end CDImage
